import Mathlib

/-!
Shallow embedding of the shashki-engine C++ sources (Russian draughts engine)
and proofs about its specification claims.

Sources embedded:
- src/shashki-engine/src/common.cpp (Side, PieceType, Piece, BitBoard, Move, Game)
- src/shashki-engine/src/move-generation.cpp (directions, walls, move generation)
- src/shashki-engine/src/evaluation.cpp (material evaluation)
- src/shashki-engine/src/engine.cpp (minimax search with alpha/beta pruning)

Machine integers: the C++ code works on 64-bit unsigned words
(unsigned long long).  Words are embedded as Nat; every operation that can
produce a value with bits at position 64 or above (left shift, complement)
is masked modulo 2 ^ 64, exactly mirroring the C++ semantics.  Signed int
arithmetic on square indices (bit - move_count * position_move) is embedded
as Int arithmetic followed by toNat; for the values the code actually
produces the intermediate results are nonnegative.

General recursion: the C++ move generator recurses while a shifted word is
nonzero and while capture chains can be extended; both recursions are
bounded (a word shifted by at least 7 bits per step is zero after at most
ten steps, and a capture chain adds a fresh bit below 64 to the capture
mask at every link, so chains are shorter than 64 links).  The embedding
threads an explicit fuel counter that decreases at every nested call
(including the per-bit emission loop of the follow-move generation); the
entry points supply fuel 1000000, far above the worst-case call depth of
the C++ recursion, so the fuel never runs out on any reachable argument.
-/

namespace Shashki

/-- Side enum from common.hpp: the two players. -/
inductive Side where
  | WHITE
  | BLACK
deriving DecidableEq

/-- side_opposite from common.cpp. -/
def side_opposite : Side → Side
  | .WHITE => .BLACK
  | .BLACK => .WHITE

/-- PieceType enum from common.hpp: man or king. -/
inductive PieceType where
  | MAN
  | KING
deriving DecidableEq

/-- piece_type_opposite from common.cpp. -/
def piece_type_opposite : PieceType → PieceType
  | .MAN => .KING
  | .KING => .MAN

/-- Piece from common.hpp: side, type and square index.  The C++ field
position is an int whose valid values are 0..63; it is embedded as Nat
(the generator computes positions with int arithmetic, embedded below as
Int arithmetic followed by toNat). -/
structure Piece where
  side : Side
  piece_type : PieceType
  position : Nat
deriving DecidableEq

/-- The modulus of the 64-bit unsigned words used by the C++ code. -/
def U64 : Nat := 2 ^ 64

/-- C++ left shift on unsigned long long: shift then reduce modulo 2 ^ 64. -/
def shl64 (x k : Nat) : Nat := (x <<< k) % U64

/-- C++ bitwise complement on unsigned long long (operator tilde):
all 64 bits are flipped, higher bits do not exist. -/
def not64 (x : Nat) : Nat := (U64 - 1) ^^^ (x &&& (U64 - 1))

/-- The C++ idiom word and complement-of-single-bit, used by the Move
constructor to clear one square. -/
def clear64 (w p : Nat) : Nat := w &&& not64 (shl64 1 p)

/-- The C++ idiom word or single-bit, used by the Move constructor to set
one square. -/
def set64 (w p : Nat) : Nat := w ||| shl64 1 p

/-- BitBoard from common.hpp: one 64-bit word per side/type combination. -/
structure BitBoard where
  white_men : Nat
  white_kings : Nat
  black_men : Nat
  black_kings : Nat
deriving DecidableEq

/-- The default BitBoard constructor from common.cpp: the Shashki start
constellation (binary literals copied from the source). -/
def BitBoard.initial : BitBoard :=
  { white_men := 0b0000000000000000000000000000000000000000101010100101010110101010
    white_kings := 0b0000000000000000000000000000000000000000000000000000000000000000
    black_men := 0b0101010110101010010101010000000000000000000000000000000000000000
    black_kings := 0b0000000000000000000000000000000000000000000000000000000000000000 }

/-- pieces_of_side_and_type from common.cpp. -/
def BitBoard.pieces_of_side_and_type (b : BitBoard) (side : Side) (piece_type : PieceType) : Nat :=
  match side, piece_type with
  | .WHITE, .MAN => b.white_men
  | .WHITE, .KING => b.white_kings
  | .BLACK, .MAN => b.black_men
  | .BLACK, .KING => b.black_kings

/-- blocking_board from common.cpp: all four words combined. -/
def BitBoard.blocking_board (b : BitBoard) : Nat :=
  b.white_men ||| b.white_kings ||| b.black_men ||| b.black_kings

/-- blocking_board_of_side from common.cpp. -/
def BitBoard.blocking_board_of_side (b : BitBoard) (side : Side) : Nat :=
  match side with
  | .WHITE => b.white_men ||| b.white_kings
  | .BLACK => b.black_men ||| b.black_kings

/-- piece_type_on_position from common.cpp: MAN when a men word holds the
square, KING otherwise (also for completely empty squares). -/
def BitBoard.piece_type_on_position (b : BitBoard) (position : Nat) : PieceType :=
  if (b.white_men ||| b.black_men) &&& shl64 1 position ≠ 0 then .MAN else .KING

/-- Move from common.hpp.  A single ply together with the tree of its
possible continuation jumps (follow_moves).  C++ class members appear in
declaration order; the class is recursive through std vector, embedded as
a nested inductive over List. -/
inductive Move where
  | mk (moving_piece : Piece) (target_position : Nat) (attacked_piece : Option Piece)
       (promotion : Bool) (source_bit_board : BitBoard) (target_bit_board : BitBoard)
       (follow_moves : List Move)

/-- Getter get_moving_piece. -/
def Move.moving_piece : Move → Piece
  | .mk mp _ _ _ _ _ _ => mp

/-- Getter get_target_position. -/
def Move.target_position : Move → Nat
  | .mk _ tp _ _ _ _ _ => tp

/-- Getter get_attacked_piece. -/
def Move.attacked_piece : Move → Option Piece
  | .mk _ _ ap _ _ _ _ => ap

/-- Getter is_promotion. -/
def Move.promotion : Move → Bool
  | .mk _ _ _ pr _ _ _ => pr

/-- Getter get_source_bit_board. -/
def Move.source_bit_board : Move → BitBoard
  | .mk _ _ _ _ sb _ _ => sb

/-- Getter get_target_bit_board. -/
def Move.target_bit_board : Move → BitBoard
  | .mk _ _ _ _ _ tb _ => tb

/-- Getter get_follow_moves. -/
def Move.follow_moves : Move → List Move
  | .mk _ _ _ _ _ _ fm => fm

/-- The Move constructor from common.cpp: computes the target bitboard from
the arguments by clearing the source square in all four words, clearing the
attacked square (when a capture) in all four words, and setting the target
square in the word selected by side and effective type (promotion or KING
select the king word).  follow_moves starts empty. -/
def Move.make (moving_piece : Piece) (target_position : Nat) (attacked_piece : Option Piece)
    (promotion : Bool) (source_bit_board : BitBoard) : Move :=
  let t1 : BitBoard :=
    { white_men := clear64 source_bit_board.white_men moving_piece.position
      white_kings := clear64 source_bit_board.white_kings moving_piece.position
      black_men := clear64 source_bit_board.black_men moving_piece.position
      black_kings := clear64 source_bit_board.black_kings moving_piece.position }
  let t2 : BitBoard :=
    match attacked_piece with
    | some a =>
      { white_men := clear64 t1.white_men a.position
        white_kings := clear64 t1.white_kings a.position
        black_men := clear64 t1.black_men a.position
        black_kings := clear64 t1.black_kings a.position }
    | none => t1
  let t3 : BitBoard :=
    if moving_piece.side = .WHITE ∧ (promotion = true ∨ moving_piece.piece_type = .KING) then
      { t2 with white_kings := set64 t2.white_kings target_position }
    else if moving_piece.side = .WHITE then
      { t2 with white_men := set64 t2.white_men target_position }
    else if moving_piece.side = .BLACK ∧ (promotion = true ∨ moving_piece.piece_type = .KING) then
      { t2 with black_kings := set64 t2.black_kings target_position }
    else
      { t2 with black_men := set64 t2.black_men target_position }
  .mk moving_piece target_position attacked_piece promotion source_bit_board t3 []

/-- add_follow_move from common.cpp: push_back on the follow list. -/
def Move.add_follow_move : Move → Move → Move
  | .mk mp tp ap pr sb tb fm, f => .mk mp tp ap pr sb tb (fm ++ [f])

/-- clear_follow_moves from common.cpp. -/
def Move.clear_follow_moves : Move → Move
  | .mk mp tp ap pr sb tb _ => .mk mp tp ap pr sb tb []

mutual

/-- Structural equality test on moves (all fields, follow moves included),
used to build a decidable equality for the embedding.  The C++ operator is
weaker (it compares the two bitboards only); it is not modelled here
because no claim mentions it. -/
def Move.beqMove : Move → Move → Bool
  | .mk mp tp ap pr sb tb fm, .mk mp2 tp2 ap2 pr2 sb2 tb2 fm2 =>
    mp == mp2 && tp == tp2 && ap == ap2 && pr == pr2 && sb == sb2 && tb == tb2 &&
      beqMoveList fm fm2

/-- Helper for the nested recursion of Move.beqMove. -/
def beqMoveList : List Move → List Move → Bool
  | [], [] => true
  | f :: fs, g :: gs => Move.beqMove f g && beqMoveList fs gs
  | [], _ :: _ => false
  | _ :: _, [] => false

end

mutual

theorem beqMove_iff : ∀ (m n : Move), Move.beqMove m n = true ↔ m = n
  | .mk mp tp ap pr sb tb fm, .mk mp2 tp2 ap2 pr2 sb2 tb2 fm2 => by
    rw [Move.beqMove]
    simp only [Bool.and_eq_true, beq_iff_eq, Move.mk.injEq]
    rw [beqMoveList_iff fm fm2]
    tauto

theorem beqMoveList_iff : ∀ (l1 l2 : List Move), beqMoveList l1 l2 = true ↔ l1 = l2
  | [], [] => by simp [beqMoveList]
  | [], _ :: _ => by simp [beqMoveList]
  | _ :: _, [] => by simp [beqMoveList]
  | f :: fs, g :: gs => by
    rw [beqMoveList]
    simp only [Bool.and_eq_true, List.cons.injEq]
    rw [beqMove_iff f g, beqMoveList_iff fs gs]

end

instance : DecidableEq Move := fun m n =>
  decidable_of_iff (Move.beqMove m n = true) (beqMove_iff m n)

mutual

/-- compare_follow_moves_to_bit_board from common.cpp: at a leaf compare
the target bitboard, otherwise ask whether any follow move reaches the
given bitboard. -/
def Move.compare_follow_moves_to_bit_board (b : BitBoard) : Move → Bool
  | .mk _ _ _ _ _ tb fm => if fm.isEmpty then tb == b else compare_fm_list b fm

/-- Helper for the nested recursion of compare_follow_moves_to_bit_board:
the std any_of over the follow list. -/
def compare_fm_list (b : BitBoard) : List Move → Bool
  | [] => false
  | f :: fs => Move.compare_follow_moves_to_bit_board b f || compare_fm_list b fs

end

/-- Model of the std remove_if call in shrink_follow_moves_to_bit_board.
The C++ code discards the returned iterator, so the vector keeps its
length: the kept elements (predicate false) are shifted to the front, and
the slots from position kept-count onward are not erased.  The standard
leaves those trailing slots with valid but unspecified contents; this model
takes them to retain their previous values (the shift algorithm with
copying assignment).  The counterexample below only removes a trailing
element, in which case the algorithm performs no assignment at all and the
result is the same under every conforming implementation. -/
def removeIfModel (p : Move → Bool) (l : List Move) : List Move :=
  let kept := l.filter (fun x => !p x)
  kept ++ l.drop kept.length

mutual

/-- shrink_follow_moves_to_bit_board from common.cpp.  On a node with
children it applies remove_if with predicate "does not reach the bitboard"
(whose result is discarded, see removeIfModel) and then recursively shrinks
every element remaining in the vector. -/
def Move.shrink_follow_moves_to_bit_board (b : BitBoard) : Move → Move
  | .mk mp tp ap pr sb tb fm =>
    if fm.isEmpty then .mk mp tp ap pr sb tb fm
    else
      .mk mp tp ap pr sb tb
        (shrink_fm_filter b fm ++
          shrink_fm_drop b (fm.countP (fun f => f.compare_follow_moves_to_bit_board b)) fm)

/-- Recursively shrinks the elements the remove_if model keeps at the front
of the vector: those whose compare_follow_moves_to_bit_board holds. -/
def shrink_fm_filter (b : BitBoard) : List Move → List Move
  | [] => []
  | f :: fs =>
    if f.compare_follow_moves_to_bit_board b
    then f.shrink_follow_moves_to_bit_board b :: shrink_fm_filter b fs
    else shrink_fm_filter b fs

/-- Recursively shrinks the elements in the trailing part of the vector
(the slots from the kept count onward, see removeIfModel). -/
def shrink_fm_drop (b : BitBoard) : Nat → List Move → List Move
  | _, [] => []
  | 0, f :: fs => f.shrink_follow_moves_to_bit_board b :: shrink_fm_drop b 0 fs
  | n + 1, _ :: fs => shrink_fm_drop b n fs

end

mutual

/-- The terminal bitboards of a move tree in depth-first order: one entry
for every root-to-leaf path.  This is the board list that
convert_move_combo_to_child_nodes in engine.cpp pushes (it pushes each onto
the front of a forward_list, which reverses the order; the search embedding
below applies the reversal). -/
def Move.terminal_bit_boards : Move → List BitBoard
  | .mk _ _ _ _ _ tb fm => if fm.isEmpty then [tb] else terminal_fm_list fm

/-- Helper for the nested recursion of terminal_bit_boards. -/
def terminal_fm_list : List Move → List BitBoard
  | [] => []
  | f :: fs => f.terminal_bit_boards ++ terminal_fm_list fs

end

/-- description from common.cpp: coordinate text of one ply, for example
A3-B4, or A3-B4-C5 for a capture (source, captured square, target). -/
def square_text (position : Nat) : String :=
  String.mk [Char.ofNat (7 - position % 8 + 65)] ++ toString (position / 8 + 1)

/-- description from common.cpp (see square_text for the coordinate text). -/
def Move.description (m : Move) : String :=
  match m.attacked_piece with
  | some a => square_text m.moving_piece.position ++ "-" ++ square_text a.position ++ "-" ++
      square_text m.target_position
  | none => square_text m.moving_piece.position ++ "-" ++ square_text m.target_position

/-- Game from common.hpp: current board, side to move, executed history. -/
structure Game where
  bit_board : BitBoard
  current_turn : Side
  executed_moves : List Move

/-- The default Game constructor: initial board, White to move, empty
history. -/
def Game.start : Game :=
  { bit_board := BitBoard.initial, current_turn := .WHITE, executed_moves := [] }

/-- execute_move from common.cpp: push a copy of the move with its follow
moves cleared, set the board to the target board of that copy, and flip the
turn exactly when the move came without follow moves. -/
def Game.execute_move (g : Game) (m : Move) : Game :=
  { bit_board := m.clear_follow_moves.target_bit_board
    current_turn := if m.follow_moves.isEmpty then side_opposite g.current_turn else g.current_turn
    executed_moves := g.executed_moves ++ [m.clear_follow_moves] }

/-- undo_last_move from common.cpp: no-op on a history shorter than three
moves; otherwise pop trailing moves whose side differs from the current
turn, then pop trailing moves whose side equals the current turn, and set
the board to the target of the new last move.  The two pop loops are
embedded as dropWhile on the reversed history.  The C++ back() call on an
emptied history is undefined behaviour; the embedding then keeps the old
board. -/
def Game.undo_last_move (g : Game) : Game :=
  if g.executed_moves.length < 3 then g
  else
    let r1 := g.executed_moves.reverse.dropWhile
      (fun mv => !(g.current_turn == mv.moving_piece.side))
    let r2 := r1.dropWhile (fun mv => g.current_turn == mv.moving_piece.side)
    { bit_board := ((r2.head?).map Move.target_bit_board).getD g.bit_board
      current_turn := g.current_turn
      executed_moves := r2.reverse }

/-- in_move_combo from common.cpp: the history is nonempty and the last
executed move was made by the side whose turn it still is. -/
def Game.in_move_combo (g : Game) : Bool :=
  match g.executed_moves.getLast? with
  | none => false
  | some lm => g.current_turn == lm.moving_piece.side

/-- move_combo_piece from common.cpp: the piece that made the last executed
move, at its landing square, promoted to KING when that move promoted.
The C++ function must not be called on an empty history (undefined
behaviour); the embedding then returns a junk piece. -/
def Game.move_combo_piece (g : Game) : Piece :=
  match g.executed_moves.getLast? with
  | some lm =>
    { side := lm.moving_piece.side
      piece_type := if lm.promotion then .KING else lm.moving_piece.piece_type
      position := lm.target_position }
  | none => { side := .WHITE, piece_type := .MAN, position := 0 }

/-- capture_bit_board from common.cpp: the union of the single-bit boards
of the attacked squares of the trailing history entries made by the side to
move.  The C++ function requires a combo in progress and captures in every
such entry (otherwise it dereferences an empty optional); the embedding
reads position 0 for a missing attacked piece. -/
def Game.capture_bit_board (g : Game) : Nat :=
  (g.executed_moves.reverse.takeWhile (fun mv => g.current_turn == mv.moving_piece.side)).foldl
    (fun acc mv => acc ||| shl64 1 ((mv.attacked_piece.map Piece.position).getD 0)) 0

end Shashki

namespace Shashki

/-- Direction enum from move-generation.cpp. -/
inductive Direction where
  | LEFT
  | RIGHT
  | UP
  | DOWN
deriving DecidableEq

/-- MoveDirection from move-generation.cpp: the data of one diagonal
direction, including the wall masks, the signed step value, the shift
function and the promotion test. -/
structure MoveDirection where
  horizontal_direction : Direction
  vertical_direction : Direction
  normal_wall : Nat
  attack_wall : Nat
  position_move : Int
  bit_operation : Nat → Nat
  promotion_check : Side → PieceType → Nat → Bool

/-- WALL_NORMAL_LEFT from move-generation.cpp. -/
def WALL_NORMAL_LEFT : Nat :=
  0b1000000010000000100000001000000010000000100000001000000010000000

/-- WALL_NORMAL_RIGHT from move-generation.cpp. -/
def WALL_NORMAL_RIGHT : Nat :=
  0b0000000100000001000000010000000100000001000000010000000100000001

/-- WALL_NORMAL_UP from move-generation.cpp. -/
def WALL_NORMAL_UP : Nat :=
  0b1111111100000000000000000000000000000000000000000000000000000000

/-- WALL_NORMAL_DOWN from move-generation.cpp. -/
def WALL_NORMAL_DOWN : Nat :=
  0b0000000000000000000000000000000000000000000000000000000011111111

/-- WALL_ATTACK_LEFT from move-generation.cpp. -/
def WALL_ATTACK_LEFT : Nat :=
  0b1100000011000000110000001100000011000000110000001100000011000000

/-- WALL_ATTACK_RIGHT from move-generation.cpp. -/
def WALL_ATTACK_RIGHT : Nat :=
  0b0000001100000011000000110000001100000011000000110000001100000011

/-- WALL_ATTACK_UP from move-generation.cpp. -/
def WALL_ATTACK_UP : Nat :=
  0b1111111111111111000000000000000000000000000000000000000000000000

/-- WALL_ATTACK_DOWN from move-generation.cpp. -/
def WALL_ATTACK_DOWN : Nat :=
  0b0000000000000000000000000000000000000000000000001111111111111111

/-- LEFT_UP from move-generation.cpp: shift by plus nine. -/
def LEFT_UP : MoveDirection :=
  { horizontal_direction := .LEFT
    vertical_direction := .UP
    normal_wall := WALL_NORMAL_LEFT ||| WALL_NORMAL_UP
    attack_wall := WALL_ATTACK_LEFT ||| WALL_ATTACK_UP
    position_move := 9
    bit_operation := fun bits => shl64 bits 9
    promotion_check := fun side piece_type position =>
      side = .WHITE && piece_type = .MAN && position > 55 }

/-- RIGHT_UP from move-generation.cpp: shift by plus seven. -/
def RIGHT_UP : MoveDirection :=
  { horizontal_direction := .RIGHT
    vertical_direction := .UP
    normal_wall := WALL_NORMAL_RIGHT ||| WALL_NORMAL_UP
    attack_wall := WALL_ATTACK_RIGHT ||| WALL_ATTACK_UP
    position_move := 7
    bit_operation := fun bits => shl64 bits 7
    promotion_check := fun side piece_type position =>
      side = .WHITE && piece_type = .MAN && position > 55 }

/-- LEFT_DOWN from move-generation.cpp: shift by minus seven. -/
def LEFT_DOWN : MoveDirection :=
  { horizontal_direction := .LEFT
    vertical_direction := .DOWN
    normal_wall := WALL_NORMAL_LEFT ||| WALL_NORMAL_DOWN
    attack_wall := WALL_ATTACK_LEFT ||| WALL_ATTACK_DOWN
    position_move := -7
    bit_operation := fun bits => bits >>> 7
    promotion_check := fun side piece_type position =>
      side = .BLACK && piece_type = .MAN && position < 8 }

/-- RIGHT_DOWN from move-generation.cpp: shift by minus nine. -/
def RIGHT_DOWN : MoveDirection :=
  { horizontal_direction := .RIGHT
    vertical_direction := .DOWN
    normal_wall := WALL_NORMAL_RIGHT ||| WALL_NORMAL_DOWN
    attack_wall := WALL_ATTACK_RIGHT ||| WALL_ATTACK_DOWN
    position_move := -9
    bit_operation := fun bits => bits >>> 9
    promotion_check := fun side piece_type position =>
      side = .BLACK && piece_type = .MAN && position < 8 }

/-- generate_normal_moves_with_bit_board from move-generation.cpp: mask the
edge wall, shift, drop blocked landing squares, emit one non-capture move
per remaining bit, and recurse with an increased move count for kings. -/
def generate_normal_moves_with_bit_board :
    Nat → BitBoard → Side → PieceType → MoveDirection → Nat → Nat → List Move
  | 0, _, _, _, _, _, _ => []
  | fuel + 1, bit_board, side, piece_type, md, move_bit_board, move_count =>
    let m1 := move_bit_board &&& not64 md.normal_wall
    let m2 := md.bit_operation m1
    let m3 := m2 &&& not64 bit_board.blocking_board
    if m3 = 0 then []
    else
      let emitted := (List.range 64).flatMap (fun bit =>
        if m3 &&& shl64 1 bit ≠ 0 then
          [Move.make
            { side := side
              piece_type := piece_type
              position := ((bit : Int) - (move_count : Int) * md.position_move).toNat }
            bit none (md.promotion_check side piece_type bit) bit_board]
        else [])
      emitted ++
        (if piece_type = .KING then
          generate_normal_moves_with_bit_board fuel bit_board side piece_type md m3 (move_count + 1)
        else [])

/-- The fuel supplied by the entry points; far above the worst-case nesting
depth of the bounded C++ recursion (see the file comment). -/
def GEN_FUEL : Nat := 1000000

/-- generate_normal_moves from move-generation.cpp. -/
def generate_normal_moves (bit_board : BitBoard) (side : Side) (piece_type : PieceType)
    (md : MoveDirection) : List Move :=
  generate_normal_moves_with_bit_board GEN_FUEL bit_board side piece_type md
    (bit_board.pieces_of_side_and_type side piece_type) 1

mutual

/-- move_before_enemy from move-generation.cpp: advance toward an enemy
piece.  One masked shift; squares holding an enemy become the attack set
handed to move_after_enemy, empty squares feed the king recursion.  The
C++ appends the recursion results before the attack results into one
vector; the embedding concatenates in the same order. -/
def move_before_enemy (fuel : Nat) (bit_board : BitBoard) (side : Side)
    (piece_type : PieceType) (md : MoveDirection)
    (capture_bit_board move_bit_board move_count : Nat) : List Move :=
  match fuel with
  | 0 => []
  | fuel + 1 =>
    let m1 := move_bit_board &&& not64 md.attack_wall
    let m2 := md.bit_operation m1
    let m3 := m2 &&& not64 capture_bit_board
    if m3 = 0 then []
    else
      let attack_bit_board := m3 &&& bit_board.blocking_board_of_side (side_opposite side)
      let m4 := m3 &&& not64 bit_board.blocking_board
      (if piece_type = .KING then
        move_before_enemy fuel bit_board side piece_type md capture_bit_board m4 (move_count + 1)
      else []) ++
        move_after_enemy fuel bit_board side piece_type md capture_bit_board attack_bit_board
          (move_count + 1) 1
termination_by structural fuel

/-- move_after_enemy from move-generation.cpp: jump past the enemy.  One
masked shift onto an empty, not-yet-captured square; each remaining bit
emits a capture move whose follow moves are generated at once with the
capture mask extended by the attacked square; kings recurse for longer
landing slides. -/
def move_after_enemy (fuel : Nat) (bit_board : BitBoard) (side : Side)
    (piece_type : PieceType) (md : MoveDirection)
    (capture_bit_board move_bit_board move_count attack_count : Nat) : List Move :=
  match fuel with
  | 0 => []
  | fuel + 1 =>
    let m1 := move_bit_board &&& not64 md.normal_wall
    let m2 := md.bit_operation m1
    let m3 := m2 &&& not64 bit_board.blocking_board
    let m4 := m3 &&& not64 capture_bit_board
    if m4 = 0 then []
    else
      let emitted := (List.range 64).flatMap (fun bit =>
        if m4 &&& shl64 1 bit ≠ 0 then
          let attacked_position := ((bit : Int) - (attack_count : Int) * md.position_move).toNat
          let mv := Move.make
            { side := side
              piece_type := piece_type
              position := ((bit : Int) - (move_count : Int) * md.position_move).toNat }
            bit
            (some { side := side_opposite side
                    piece_type := bit_board.piece_type_on_position attacked_position
                    position := attacked_position })
            (md.promotion_check side piece_type bit) bit_board
          [generate_follow_moves fuel (capture_bit_board ||| shl64 1 attacked_position) mv]
        else [])
      emitted ++
        (if piece_type = .KING then
          move_after_enemy fuel bit_board side piece_type md capture_bit_board m4
            (move_count + 1) (attack_count + 1)
        else [])
termination_by structural fuel

/-- generate_follow_moves from move-generation.cpp: extend a capture move
with its follow jumps, trying the four directions in order on the move
being extended. -/
def generate_follow_moves (fuel : Nat) (capture_bit_board : Nat) (mv : Move) : Move :=
  match fuel with
  | 0 => mv
  | fuel + 1 =>
    let mv1 := generate_follow_move fuel LEFT_UP capture_bit_board mv
    let mv2 := generate_follow_move fuel RIGHT_UP capture_bit_board mv1
    let mv3 := generate_follow_move fuel LEFT_DOWN capture_bit_board mv2
    generate_follow_move fuel RIGHT_DOWN capture_bit_board mv3
termination_by structural fuel

/-- generate_follow_move from move-generation.cpp: start the two-phase
shift from the single bit of the landing square of the move. -/
def generate_follow_move (fuel : Nat) (md : MoveDirection) (capture_bit_board : Nat)
    (mv : Move) : Move :=
  match fuel with
  | 0 => mv
  | fuel + 1 =>
    follow_move_before_enemy fuel md capture_bit_board (shl64 1 mv.target_position) 1 mv
termination_by structural fuel

/-- follow_move_before_enemy from move-generation.cpp: like
move_before_enemy but on the target bitboard of the move being extended,
with the recursion condition honouring a mid-chain promotion.  The C++
reads the side of the attacked piece of the move (always present on the
capture moves this runs on); the embedding falls back to the opposite side
for a missing attacked piece. -/
def follow_move_before_enemy (fuel : Nat) (md : MoveDirection)
    (capture_bit_board move_bit_board move_count : Nat) (mv : Move) : Move :=
  match fuel with
  | 0 => mv
  | fuel + 1 =>
    let m1 := move_bit_board &&& not64 md.attack_wall
    let m2 := md.bit_operation m1
    let m3 := m2 &&& not64 capture_bit_board
    if m3 = 0 then mv
    else
      let attacked_side := (mv.attacked_piece.map Piece.side).getD
        (side_opposite mv.moving_piece.side)
      let attack_bit_board := m3 &&& mv.target_bit_board.blocking_board_of_side attacked_side
      let m4 := m3 &&& not64 mv.target_bit_board.blocking_board
      let mv1 :=
        if mv.moving_piece.piece_type = .KING ∨ mv.promotion then
          follow_move_before_enemy fuel md capture_bit_board m4 (move_count + 1) mv
        else mv
      follow_move_after_enemy fuel md capture_bit_board attack_bit_board (move_count + 1) 1 mv1
termination_by structural fuel

/-- follow_move_after_enemy from move-generation.cpp: like move_after_enemy
but appending the emitted jumps as follow moves of the move being extended,
using the effective piece type (KING after a promotion) and the target
bitboard of that move as the live board.  The bit loop of the C++ body is
the mutual function emit_follow_loop below. -/
def follow_move_after_enemy (fuel : Nat) (md : MoveDirection)
    (capture_bit_board move_bit_board move_count attack_count : Nat) (mv : Move) : Move :=
  match fuel with
  | 0 => mv
  | fuel + 1 =>
    let m1 := move_bit_board &&& not64 md.normal_wall
    let m2 := md.bit_operation m1
    let m3 := m2 &&& not64 mv.target_bit_board.blocking_board
    let m4 := m3 &&& not64 capture_bit_board
    if m4 = 0 then mv
    else
      let mv1 := emit_follow_loop fuel md capture_bit_board m4 move_count attack_count
        (List.range 64) mv
      if mv1.moving_piece.piece_type = .KING ∨ mv1.promotion then
        follow_move_after_enemy fuel md capture_bit_board m4 (move_count + 1) (attack_count + 1) mv1
      else mv1
termination_by structural fuel

/-- The bit loop of follow_move_after_enemy: for every set bit of the
landing board m4 (iterated in ascending order) append one capture follow
move, with its own follow moves generated under the extended capture mask,
to the move being extended. -/
def emit_follow_loop (fuel : Nat) (md : MoveDirection)
    (capture_bit_board m4 move_count attack_count : Nat) (bits : List Nat) (acc : Move) : Move :=
  match fuel with
  | 0 => acc
  | fuel + 1 =>
    match bits with
    | [] => acc
    | bit :: rest =>
      let acc2 :=
        if m4 &&& shl64 1 bit ≠ 0 then
          let attacked_position := ((bit : Int) - (attack_count : Int) * md.position_move).toNat
          let effective_type : PieceType :=
            if acc.promotion then .KING else acc.moving_piece.piece_type
          let attacked_side := (acc.attacked_piece.map Piece.side).getD
            (side_opposite acc.moving_piece.side)
          let fm := Move.make
            { side := acc.moving_piece.side
              piece_type := effective_type
              position := ((bit : Int) - (move_count : Int) * md.position_move).toNat }
            bit
            (some { side := attacked_side
                    piece_type := acc.target_bit_board.piece_type_on_position attacked_position
                    position := attacked_position })
            (md.promotion_check acc.moving_piece.side effective_type bit)
            acc.target_bit_board
          acc.add_follow_move
            (generate_follow_moves fuel (capture_bit_board ||| shl64 1 attacked_position) fm)
        else acc
      emit_follow_loop fuel md capture_bit_board m4 move_count attack_count rest acc2
termination_by structural fuel

end

/-- generate_attack_moves from move-generation.cpp. -/
def generate_attack_moves (bit_board : BitBoard) (side : Side) (piece_type : PieceType)
    (md : MoveDirection) : List Move :=
  move_before_enemy GEN_FUEL bit_board side piece_type md 0
    (bit_board.pieces_of_side_and_type side piece_type) 1

/-- generate_attack_moves_for_piece from move-generation.cpp. -/
def generate_attack_moves_for_piece (bit_board : BitBoard) (piece : Piece)
    (md : MoveDirection) (capture_bit_board : Nat) : List Move :=
  move_before_enemy GEN_FUEL bit_board piece.side piece.piece_type md capture_bit_board
    (shl64 1 piece.position) 1

/-- The attack phase of generate_moves_for_side: the eight
generate_attack_moves calls in source order. -/
def generate_attack_moves_all (bit_board : BitBoard) (side : Side) : List Move :=
  generate_attack_moves bit_board side .MAN LEFT_UP ++
  generate_attack_moves bit_board side .MAN RIGHT_UP ++
  generate_attack_moves bit_board side .MAN LEFT_DOWN ++
  generate_attack_moves bit_board side .MAN RIGHT_DOWN ++
  generate_attack_moves bit_board side .KING LEFT_UP ++
  generate_attack_moves bit_board side .KING RIGHT_UP ++
  generate_attack_moves bit_board side .KING LEFT_DOWN ++
  generate_attack_moves bit_board side .KING RIGHT_DOWN

/-- The non-capture phase of generate_moves_for_side: men only move toward
the enemy side, kings in all four directions. -/
def generate_normal_moves_all (bit_board : BitBoard) (side : Side) : List Move :=
  match side with
  | .WHITE =>
    generate_normal_moves bit_board side .MAN LEFT_UP ++
    generate_normal_moves bit_board side .MAN RIGHT_UP ++
    generate_normal_moves bit_board side .KING LEFT_UP ++
    generate_normal_moves bit_board side .KING RIGHT_UP ++
    generate_normal_moves bit_board side .KING LEFT_DOWN ++
    generate_normal_moves bit_board side .KING RIGHT_DOWN
  | .BLACK =>
    generate_normal_moves bit_board side .MAN LEFT_DOWN ++
    generate_normal_moves bit_board side .MAN RIGHT_DOWN ++
    generate_normal_moves bit_board side .KING LEFT_UP ++
    generate_normal_moves bit_board side .KING RIGHT_UP ++
    generate_normal_moves bit_board side .KING LEFT_DOWN ++
    generate_normal_moves bit_board side .KING RIGHT_DOWN

/-- generate_moves_for_side from move-generation.cpp: attack moves first;
non-capture moves only when no attack move exists (jumping is obligatory). -/
def generate_moves_for_side (bit_board : BitBoard) (side : Side) : List Move :=
  let moves := generate_attack_moves_all bit_board side
  if moves.isEmpty then generate_normal_moves_all bit_board side else moves

/-- generate_moves_for_piece from move-generation.cpp: attack moves of one
piece under an inherited capture mask, used for combo continuations. -/
def generate_moves_for_piece (bit_board : BitBoard) (piece : Piece)
    (capture_bit_board : Nat) : List Move :=
  generate_attack_moves_for_piece bit_board piece LEFT_UP capture_bit_board ++
  generate_attack_moves_for_piece bit_board piece RIGHT_UP capture_bit_board ++
  generate_attack_moves_for_piece bit_board piece LEFT_DOWN capture_bit_board ++
  generate_attack_moves_for_piece bit_board piece RIGHT_DOWN capture_bit_board

/-- generate_moves_for_game from move-generation.cpp: combo dispatch. -/
def generate_moves_for_game (g : Game) : List Move :=
  if g.in_move_combo then
    generate_moves_for_piece g.bit_board g.move_combo_piece g.capture_bit_board
  else
    generate_moves_for_side g.bit_board g.current_turn

end Shashki

namespace Shashki

/-- WEIGHT_MAN from evaluation.cpp. -/
def WEIGHT_MAN : Int := 1

/-- WEIGHT_KING from evaluation.cpp. -/
def WEIGHT_KING : Int := 5

/-- evaluate_bit_board_part from evaluation.cpp: loop over the 64 bits of
one word, adding the weight for every set bit. -/
def evaluate_bit_board_part (bit_board_part : Nat) (evaluation_weight : Int) : Int :=
  (List.range 64).foldl
    (fun evaluation bit =>
      if bit_board_part &&& shl64 1 bit ≠ 0 then evaluation + evaluation_weight else evaluation)
    0

/-- evaluate_bit_board from evaluation.cpp: the four weighted parts summed,
black counted negatively. -/
def evaluate_bit_board (bit_board : BitBoard) : Int :=
  evaluate_bit_board_part bit_board.white_men WEIGHT_MAN +
  evaluate_bit_board_part bit_board.white_kings WEIGHT_KING +
  evaluate_bit_board_part bit_board.black_men (-WEIGHT_MAN) +
  evaluate_bit_board_part bit_board.black_kings (-WEIGHT_KING)

/-- convert_move_combo_to_child_nodes from engine.cpp flattens one move
tree into one child node per terminal board and pushes each onto the front
of the forward_list of children, so after all moves are converted the child
list holds the reversal of the depth-first terminal boards of the whole
move list (see Move.terminal_bit_boards). -/
def engine_child_boards (possible_moves : List Move) : List BitBoard :=
  (possible_moves.flatMap Move.terminal_bit_boards).reverse

/-- The White branch of the child loop of build_and_evaluate in engine.cpp:
fail-hard maximiser with alpha update and beta cutoff.  The first argument
evaluates one child node (the recursive build_and_evaluate call at the
given alpha and beta); at the root (inherited ancestor NULL, embedded as
none) each child is tagged with its own board. -/
def ab_loop_white (eval_child : BitBoard → Int → Int → Option BitBoard → Int × Option BitBoard) :
    List BitBoard → Int × Option BitBoard → Int → Int → Option BitBoard → Int × Option BitBoard
  | [], maximum, _, _, _ => maximum
  | child :: rest, maximum, alpha, beta, ancestor =>
    let evaluation := eval_child child alpha beta
      (match ancestor with | none => some child | some a => some a)
    let maximum1 := if evaluation.1 > maximum.1 then evaluation else maximum
    let alpha1 := if evaluation.1 > alpha then evaluation.1 else alpha
    if beta ≤ alpha1 then maximum1
    else ab_loop_white eval_child rest maximum1 alpha1 beta ancestor

/-- The Black branch of the child loop of build_and_evaluate in engine.cpp:
fail-hard minimiser with beta update and cutoff. -/
def ab_loop_black (eval_child : BitBoard → Int → Int → Option BitBoard → Int × Option BitBoard) :
    List BitBoard → Int × Option BitBoard → Int → Int → Option BitBoard → Int × Option BitBoard
  | [], minimum, _, _, _ => minimum
  | child :: rest, minimum, alpha, beta, ancestor =>
    let evaluation := eval_child child alpha beta
      (match ancestor with | none => some child | some a => some a)
    let minimum1 := if evaluation.1 < minimum.1 then evaluation else minimum
    let beta1 := if evaluation.1 < beta then evaluation.1 else beta
    if beta1 ≤ alpha then minimum1
    else ab_loop_black eval_child rest minimum1 alpha beta1 ancestor

/-- build_and_evaluate from engine.cpp: at depth zero or with no legal
move, the static evaluation of the node board together with the inherited
ancestor board; otherwise the alpha-beta loop over the child boards (one
per terminal board of the generated moves, in the forward_list order).
The C++ passes the ancestor as a raw pointer (NULL at the root); the
embedding carries an Option of the pointed-to board. -/
def build_and_evaluate : Nat → BitBoard → Side → Int → Int → Option BitBoard →
    Int × Option BitBoard
  | 0, bit_board, _, _, _, ancestor => (evaluate_bit_board bit_board, ancestor)
  | depth + 1, bit_board, side, alpha, beta, ancestor =>
    let possible_moves := generate_moves_for_side bit_board side
    if possible_moves.isEmpty then (evaluate_bit_board bit_board, ancestor)
    else
      let children := engine_child_boards possible_moves
      match side with
      | .WHITE =>
        ab_loop_white
          (fun child a b anc => build_and_evaluate depth child .BLACK a b anc)
          children (-100, none) alpha beta ancestor
      | .BLACK =>
        ab_loop_black
          (fun child a b anc => build_and_evaluate depth child .WHITE a b anc)
          children (100, none) alpha beta ancestor

/-- best_move from engine.cpp: run the search from the game board, then
find the first generated move whose tree reaches the ancestor board of the
search result and return it shrunk to that board.  The embedding returns
none where the C++ leaves the deterministic core: when the search returns a
NULL ancestor (the C++ would dereference it) and when no generated move
matches (the C++ falls back to a random move). -/
def best_move (g : Game) (depth : Nat) : Option Move :=
  let engine_result := build_and_evaluate depth g.bit_board g.current_turn (-100) 100 none
  match engine_result.2 with
  | none => none
  | some ancestor =>
    match (generate_moves_for_game g).find?
        (fun mv => mv.compare_follow_moves_to_bit_board ancestor) with
    | some mv => some (mv.shrink_follow_moves_to_bit_board ancestor)
    | none => none

end Shashki

namespace Shashki

theorem testBit_shl64 (x k i : Nat) :
    (shl64 x k).testBit i = (decide (i < 64) && decide (k ≤ i) && x.testBit (i - k)) := by
  rw [shl64, U64, Nat.testBit_mod_two_pow, Nat.testBit_shiftLeft]
  by_cases h1 : i < 64 <;> by_cases h2 : k ≤ i <;> simp [h1, h2]

theorem testBit_not64 (x i : Nat) :
    (not64 x).testBit i = (decide (i < 64) && !x.testBit i) := by
  rw [not64, U64, Nat.testBit_xor, Nat.testBit_and, Nat.testBit_two_pow_sub_one]
  by_cases h1 : i < 64 <;> cases h2 : x.testBit i <;> simp [h1, h2]

theorem testBit_one_eq (k : Nat) : Nat.testBit 1 k = decide (k = 0) := by
  cases h : Nat.testBit 1 k
  · have hk : k ≠ 0 := by
      intro hk0
      rw [hk0] at h
      exact absurd h (by simp [Nat.testBit_one_eq_true_iff_self_eq_zero])
    simp [hk]
  · simp [Nat.testBit_one_eq_true_iff_self_eq_zero.1 h]

theorem shl64_one_eq_pow (p : Nat) (hp : p < 64) : shl64 1 p = 2 ^ p := by
  rw [shl64, Nat.one_shiftLeft, U64, Nat.mod_eq_of_lt (Nat.pow_lt_pow_right one_lt_two hp)]

theorem and_shl64_one_ne_zero (x p : Nat) (hp : p < 64) :
    (x &&& shl64 1 p ≠ 0) ↔ x.testBit p = true := by
  rw [shl64_one_eq_pow p hp]
  cases h : x.testBit p <;> simp [Nat.and_two_pow, h]

theorem testBit_shl64_one (p i : Nat) :
    (shl64 1 p).testBit i = (decide (i < 64) && decide (i = p)) := by
  rw [testBit_shl64, testBit_one_eq]
  by_cases h1 : i < 64 <;> by_cases h2 : p ≤ i
  · simp [h1, h2, show (i - p = 0) ↔ i = p from by omega]
  · simp [h1, h2, show i ≠ p from by omega]
  · simp [h1]
  · simp [h1]

theorem testBit_clear64 (w p i : Nat) (hi : i < 64) :
    (clear64 w p).testBit i = (w.testBit i && !decide (i = p)) := by
  rw [clear64, Nat.testBit_and, testBit_not64, testBit_shl64_one]
  simp [hi]

theorem testBit_set64 (w p i : Nat) (hi : i < 64) :
    (set64 w p).testBit i = (w.testBit i || decide (i = p)) := by
  rw [set64, Nat.testBit_or, testBit_shl64_one]
  simp [hi]

theorem clear_follow_moves_target (m : Move) :
    m.clear_follow_moves.target_bit_board = m.target_bit_board := by
  cases m
  rfl

theorem clear_follow_moves_moving (m : Move) :
    m.clear_follow_moves.moving_piece = m.moving_piece := by
  cases m
  rfl

/-- Claim C5: execute_move appends a copy of the move with its follow
moves emptied to the history, sets the game board to the target bitboard of
the move, and flips the side to move exactly when the move had no follow
moves. -/
theorem C5_execute_move (g : Game) (m : Move) :
    (g.execute_move m).executed_moves = g.executed_moves ++ [m.clear_follow_moves] ∧
    (g.execute_move m).bit_board = m.target_bit_board ∧
    (g.execute_move m).current_turn =
      (if m.follow_moves.isEmpty then side_opposite g.current_turn else g.current_turn) := by
  refine ⟨rfl, ?_, rfl⟩
  exact clear_follow_moves_target m

/-- The set-bit count of the low 64 bits of a word: the per-square piece
count the specification speaks about. -/
def bit_count_64 (w : Nat) : Nat := (List.range 64).countP (fun i => w.testBit i)

theorem evaluate_part_loop (w : Nat) (weight : Int) :
    ∀ (l : List Nat) (acc : Int), (∀ bit ∈ l, bit < 64) →
      (l.foldl (fun e bit => if w &&& shl64 1 bit ≠ 0 then e + weight else e) acc)
        = acc + weight * (l.countP (fun i => w.testBit i) : Int)
  | [], acc, _ => by simp
  | b :: bs, acc, h => by
    have hb : b < 64 := h b (List.mem_cons_self b bs)
    have hbs : ∀ bit ∈ bs, bit < 64 := fun bit hb' => h bit (List.mem_cons_of_mem b hb')
    rw [List.foldl_cons, List.countP_cons]
    rcases ht : w.testBit b with _ | _
    · have : ¬(w &&& shl64 1 b ≠ 0) := by
        rw [and_shl64_one_ne_zero w b hb, ht]
        simp
      rw [if_neg this, evaluate_part_loop w weight bs acc hbs]
      simp [ht]
    · have : w &&& shl64 1 b ≠ 0 := by
        rw [and_shl64_one_ne_zero w b hb, ht]
      rw [if_pos this, evaluate_part_loop w weight bs (acc + weight) hbs]
      simp [ht]
      ring

theorem evaluate_bit_board_part_eq (w : Nat) (weight : Int) :
    evaluate_bit_board_part w weight = weight * (bit_count_64 w : Int) := by
  rw [evaluate_bit_board_part, bit_count_64,
    evaluate_part_loop w weight (List.range 64) 0 (fun bit hb => List.mem_range.1 hb)]
  ring

/-- Claim C9: the evaluation of a bitboard is the signed material count,
one point per man and five per king, white positive and black negative; in
particular the start constellation evaluates to zero. -/
theorem C9_evaluation :
    (∀ b : BitBoard,
      evaluate_bit_board b =
        (bit_count_64 b.white_men : Int) + 5 * (bit_count_64 b.white_kings : Int)
          - (bit_count_64 b.black_men : Int) - 5 * (bit_count_64 b.black_kings : Int)) ∧
    evaluate_bit_board BitBoard.initial = 0 := by
  constructor
  · intro b
    rw [evaluate_bit_board, evaluate_bit_board_part_eq, evaluate_bit_board_part_eq,
      evaluate_bit_board_part_eq, evaluate_bit_board_part_eq, WEIGHT_MAN, WEIGHT_KING]
    ring
  · decide

/-- Claim C10: piece_type_on_position answers MAN exactly when one of the
two men words holds the square, and KING in every other case, in
particular on completely empty squares. -/
theorem C10_piece_type_on_position (b : BitBoard) (p : Nat) (hp : p < 64) :
    (b.piece_type_on_position p = .MAN ↔
      (b.white_men.testBit p = true ∨ b.black_men.testBit p = true)) ∧
    (¬(b.white_men.testBit p = true ∨ b.black_men.testBit p = true) →
      b.piece_type_on_position p = .KING) := by
  have key : ((b.white_men ||| b.black_men) &&& shl64 1 p ≠ 0) ↔
      (b.white_men.testBit p = true ∨ b.black_men.testBit p = true) := by
    rw [and_shl64_one_ne_zero _ p hp, Nat.testBit_or]
    simp
  constructor
  · rw [BitBoard.piece_type_on_position]
    split
    · simp_all
    · simp_all
  · intro h
    rw [BitBoard.piece_type_on_position, if_neg (fun hc => h (key.1 hc))]

/-- Witness for C10 at concrete inputs: on the start constellation square
forty holds a black man, and square thirty-two is empty, so the lookup
answers KING there. -/
theorem C10_piece_type_on_position_witness :
    BitBoard.initial.piece_type_on_position 40 = .MAN ∧
    BitBoard.initial.piece_type_on_position 32 = .KING := by
  constructor
  · exact (C10_piece_type_on_position BitBoard.initial 40 (by decide)).1.2
      (Or.inr (by decide))
  · exact (C10_piece_type_on_position BitBoard.initial 32 (by decide)).2 (by decide)

end Shashki

namespace Shashki

/-- Claim C8: on the default game (start constellation, White to move) the
generator returns exactly the seven non-capture third-rank moves A3-B4,
C3-B4, C3-D4, E3-D4, E3-F4, G3-F4 and G3-H4 (the generator emits them in
its direction-then-square order). -/
theorem C8_start_moves :
    ((generate_moves_for_game Game.start).map Move.description).Perm
      ["A3-B4", "C3-B4", "C3-D4", "E3-D4", "E3-F4", "G3-F4", "G3-H4"] ∧
    (generate_moves_for_game Game.start).length = 7 ∧
    (generate_moves_for_game Game.start).all (fun m => m.attacked_piece.isNone) = true := by
  refine ⟨by decide, by decide, by decide⟩

mutual

/-- The number of root-to-leaf paths of a move tree: one for a leaf,
otherwise the sum over the follow moves. -/
def Move.count_leaf_paths : Move → Nat
  | .mk _ _ _ _ _ _ fm => if fm.isEmpty then 1 else count_leaf_paths_list fm

/-- Helper for the nested recursion of count_leaf_paths. -/
def count_leaf_paths_list : List Move → Nat
  | [] => 0
  | f :: fs => f.count_leaf_paths + count_leaf_paths_list fs

end

/-- A concrete move tree for claim C2: a root step with two leaf follow
moves (one matching the chosen bitboard, one not).  The board contents are
irrelevant to shrink_follow_moves_to_bit_board; plausible values built with
the Move constructor are used. -/
def c2_child_keep : Move :=
  Move.make { side := .WHITE, piece_type := .MAN, position := 26 } 35 none false
    (Move.make { side := .WHITE, piece_type := .MAN, position := 17 } 26 none false
      BitBoard.initial).target_bit_board

/-- The second, non-matching leaf follow move of the C2 tree. -/
def c2_child_other : Move :=
  Move.make { side := .WHITE, piece_type := .MAN, position := 26 } 33 none false
    (Move.make { side := .WHITE, piece_type := .MAN, position := 17 } 26 none false
      BitBoard.initial).target_bit_board

/-- The C2 root with its two follow moves attached. -/
def c2_tree : Move :=
  ((Move.make { side := .WHITE, piece_type := .MAN, position := 17 } 26 none false
      BitBoard.initial).add_follow_move c2_child_keep).add_follow_move c2_child_other

/-- Claim C2 evidence: on a tree where compare_follow_moves_to_bit_board
holds for the target board of the first follow move, the shrink call
leaves both root-to-leaf paths in place (remove_if result discarded, so
the follow vector keeps its length two), instead of the single path the
claim and the function documentation promise.  The element to be removed
is the trailing one, so the modelled remove_if performs no assignment and
the result is implementation independent. -/
theorem C2_shrink_keeps_both_paths :
    c2_tree.compare_follow_moves_to_bit_board c2_child_keep.target_bit_board = true ∧
    (c2_tree.shrink_follow_moves_to_bit_board
        c2_child_keep.target_bit_board).count_leaf_paths = 2 := by
  refine ⟨by decide, by decide⟩

end Shashki

namespace Shashki

theorem side_beq_self (s : Side) : (s == s) = true := by
  cases s <;> rfl

theorem side_beq_opposite (s : Side) : (s == side_opposite s) = false := by
  cases s <;> rfl

theorem side_opposite_beq (s : Side) : (side_opposite s == s) = false := by
  cases s <;> rfl

theorem clear_follow_moves_follow (m : Move) : m.clear_follow_moves.follow_moves = [] := by
  cases m
  rfl

/-- Claim C6 amended: after executing a legal move from an alternating
history that ends with an opposing move, undo_last_move removes the new
move and the whole trailing block of opposing moves: when the executed move
had no follow moves the game ends on the target board of the own move
before them with the turn still flipped, and only when the executed move
opened a jump combo (nonempty follow moves) are the exact previous board,
turn and history restored. -/
theorem C6_undo_after_execute (g : Game) (m : Move) (pre : List Move) (w1 b1 : Move)
    (hist : g.executed_moves = pre ++ [w1, b1])
    (hw1 : w1.moving_piece.side = g.current_turn)
    (hb1 : b1.moving_piece.side = side_opposite g.current_turn)
    (hm : m.moving_piece.side = g.current_turn)
    (hbb : g.bit_board = b1.target_bit_board) :
    (m.follow_moves = [] →
      (g.execute_move m).undo_last_move =
        { bit_board := w1.target_bit_board
          current_turn := side_opposite g.current_turn
          executed_moves := pre ++ [w1] }) ∧
    (m.follow_moves ≠ [] → (g.execute_move m).undo_last_move = g) := by
  have hlen : ¬ (g.executed_moves ++ [m.clear_follow_moves]).length < 3 := by
    rw [hist]
    simp
  have hrev : (g.executed_moves ++ [m.clear_follow_moves]).reverse =
      m.clear_follow_moves :: b1 :: w1 :: pre.reverse := by
    rw [hist]
    simp
  have hmc : m.clear_follow_moves.moving_piece.side = g.current_turn := by
    rw [clear_follow_moves_moving]
    exact hm
  constructor
  · intro hf
    have hfe : m.follow_moves.isEmpty = true := by
      rw [hf]
      rfl
    show Game.undo_last_move
      { bit_board := m.clear_follow_moves.target_bit_board
        current_turn := if m.follow_moves.isEmpty then side_opposite g.current_turn
          else g.current_turn
        executed_moves := g.executed_moves ++ [m.clear_follow_moves] } = _
    rw [hfe]
    rw [Game.undo_last_move]
    simp only [if_true]
    rw [if_neg hlen]
    simp only [hrev]
    rw [List.dropWhile_cons, if_pos (by rw [hmc, side_opposite_beq, Bool.not_false])]
    rw [List.dropWhile_cons, if_neg (by rw [hb1, side_beq_self, Bool.not_true]; exact fun h => nomatch h)]
    rw [List.dropWhile_cons, if_pos (by rw [hb1, side_beq_self])]
    rw [List.dropWhile_cons, if_neg (by rw [hw1, side_opposite_beq]; exact fun h => nomatch h)]
    simp
  · intro hf
    have hfe : m.follow_moves.isEmpty = false := by
      cases hfi : m.follow_moves with
      | nil => exact absurd hfi hf
      | cons a l => rfl
    show Game.undo_last_move
      { bit_board := m.clear_follow_moves.target_bit_board
        current_turn := if m.follow_moves.isEmpty then side_opposite g.current_turn
          else g.current_turn
        executed_moves := g.executed_moves ++ [m.clear_follow_moves] } = _
    rw [hfe]
    rw [if_neg (fun h => nomatch h)]
    rw [Game.undo_last_move]
    rw [if_neg hlen]
    simp only [hrev]
    rw [List.dropWhile_cons, if_neg (by rw [hmc, side_beq_self, Bool.not_true]; exact fun h => nomatch h)]
    rw [List.dropWhile_cons, if_pos (by rw [hmc, side_beq_self])]
    rw [List.dropWhile_cons, if_neg (by rw [hb1, side_beq_opposite]; exact fun h => nomatch h)]
    cases g with
    | mk gb gt ge =>
      simp only at hist hbb
      subst hist
      subst hbb
      simp

end Shashki

namespace Shashki

/-- A junk move used as the getD default when reading concrete generated
move lists (never actually selected below). -/
def dummy_move : Move :=
  Move.mk { side := .WHITE, piece_type := .MAN, position := 0 } 0 none false
    BitBoard.initial BitBoard.initial []

/-- First white move of the concrete game used for claims C6: the first
generated move of the start position (G3-F4). -/
def cg_w1 : Move := (generate_moves_for_game Game.start).getD 0 dummy_move

/-- The game after the first white move. -/
def cg_g1 : Game := Game.start.execute_move cg_w1

/-- First black reply: the first generated move of cg_g1 (H6-G5). -/
def cg_b1 : Move := (generate_moves_for_game cg_g1).getD 0 dummy_move

/-- The game with two executed moves, White to move again. -/
def cg_g2 : Game := cg_g1.execute_move cg_b1

/-- The only legal white move of cg_g2: the obligatory capture F4-G5-H6,
which has no follow moves. -/
def cg_m : Move := (generate_moves_for_game cg_g2).getD 0 dummy_move

/-- Claim C6 counterexample: from the concrete game cg_g2 with two prior
executed moves, executing its (only) legal move cg_m and undoing does not
restore the bitboard and does not restore the side to move: undo_last_move
also removes the opposing trailing move and never writes current_turn. -/
theorem C6_counterexample :
    cg_g2.executed_moves.length = 2 ∧
    generate_moves_for_game cg_g2 = [cg_m] ∧
    (cg_g2.execute_move cg_m).undo_last_move.bit_board ≠ cg_g2.bit_board ∧
    (cg_g2.execute_move cg_m).undo_last_move.current_turn ≠ cg_g2.current_turn := by
  refine ⟨by decide, by decide, by decide, by decide⟩

/-- Witness for the amended claim C6 at the concrete game cg_g2 and its
legal move cg_m (which has no follow moves). -/
theorem C6_undo_after_execute_witness :
    cg_g2.executed_moves =
      [] ++ [cg_w1.clear_follow_moves, cg_b1.clear_follow_moves] ∧
    (cg_g2.execute_move cg_m).undo_last_move =
      { bit_board := cg_w1.clear_follow_moves.target_bit_board
        current_turn := side_opposite cg_g2.current_turn
        executed_moves := [] ++ [cg_w1.clear_follow_moves] } :=
  ⟨by decide,
    (C6_undo_after_execute cg_g2 cg_m [] cg_w1.clear_follow_moves cg_b1.clear_follow_moves
      (by decide) (by decide) (by decide) (by decide) (by decide)).1 (by decide)⟩

end Shashki

namespace Shashki

/-- Claim C4 counterexample: the claim requires the source square to be
cleared in all four words of the target bitboard, but when the target
position coincides with the source position the constructor sets the bit
again after clearing it, so the white men word keeps the source bit: a
white man moving from square zero to square zero on a board holding only
that man produces a target bitboard with the bit still set. -/
theorem C4_counterexample :
    (Move.make { side := .WHITE, piece_type := .MAN, position := 0 } 0 none false
        { white_men := 1, white_kings := 0, black_men := 0, black_kings := 0 }
      ).target_bit_board.white_men.testBit 0 = true := by decide

/-- Claim C4 amended: for target positions distinct from the source square
and from the attacked square, the target bitboard computed by the Move
constructor differs from the source bitboard exactly as claimed: the
source square is cleared in all four words, the attacked square (when a
capture) is cleared in all four words, the target square is set in the
word selected by side and effective type (promotion or KING select the
king word), and every other bit of every word is unchanged. -/
theorem C4_constructor_frame (mp : Piece) (tpos : Nat) (ap : Option Piece) (promo : Bool)
    (src : BitBoard) (htp : tpos < 64) (hs : tpos ≠ mp.position)
    (ha : ∀ a, ap = some a → tpos ≠ a.position) (i : Nat) (hi : i < 64) :
    ((Move.make mp tpos ap promo src).target_bit_board.white_men.testBit i = true ↔
      ((i = tpos ∧ mp.side = .WHITE ∧ promo = false ∧ mp.piece_type = .MAN) ∨
       (src.white_men.testBit i = true ∧ i ≠ mp.position ∧
         ∀ a, ap = some a → i ≠ a.position))) ∧
    ((Move.make mp tpos ap promo src).target_bit_board.white_kings.testBit i = true ↔
      ((i = tpos ∧ mp.side = .WHITE ∧ (promo = true ∨ mp.piece_type = .KING)) ∨
       (src.white_kings.testBit i = true ∧ i ≠ mp.position ∧
         ∀ a, ap = some a → i ≠ a.position))) ∧
    ((Move.make mp tpos ap promo src).target_bit_board.black_men.testBit i = true ↔
      ((i = tpos ∧ mp.side = .BLACK ∧ promo = false ∧ mp.piece_type = .MAN) ∨
       (src.black_men.testBit i = true ∧ i ≠ mp.position ∧
         ∀ a, ap = some a → i ≠ a.position))) ∧
    ((Move.make mp tpos ap promo src).target_bit_board.black_kings.testBit i = true ↔
      ((i = tpos ∧ mp.side = .BLACK ∧ (promo = true ∨ mp.piece_type = .KING)) ∨
       (src.black_kings.testBit i = true ∧ i ≠ mp.position ∧
         ∀ a, ap = some a → i ≠ a.position))) := by
  obtain ⟨ms, mt, mpos⟩ := mp
  rcases ap with _ | ⟨⟨as, at_, apos⟩⟩
  · cases ms <;> cases mt <;> cases promo <;>
      refine ⟨?_, ?_, ?_, ?_⟩ <;>
      simp only [Move.make, Move.target_bit_board] <;>
      simp [testBit_set64, testBit_clear64, hi] <;>
      tauto
  · cases ms <;> cases mt <;> cases promo <;>
      refine ⟨?_, ?_, ?_, ?_⟩ <;>
      simp only [Move.make, Move.target_bit_board] <;>
      simp [testBit_set64, testBit_clear64, hi] <;>
      tauto

end Shashki

namespace Shashki

/-- Witness for the amended claim C4 at a concrete move (the opening step
G3-F4 on the start board): the source square seventeen is cleared in the
white men word. -/
theorem C4_constructor_frame_witness :
    (Move.make { side := .WHITE, piece_type := .MAN, position := 17 } 26 none false
      BitBoard.initial).target_bit_board.white_men.testBit 17 = false := by
  have h := (C4_constructor_frame { side := .WHITE, piece_type := .MAN, position := 17 } 26 none
    false BitBoard.initial (by decide) (by decide) (fun a ha => nomatch ha) 17 (by decide)).1
  cases hb : (Move.make { side := .WHITE, piece_type := .MAN, position := 17 } 26 none false
      BitBoard.initial).target_bit_board.white_men.testBit 17 with
  | false => rfl
  | true =>
    rcases h.1 hb with ⟨h1, _⟩ | ⟨_, h2, _⟩
    · exact absurd h1 (by decide)
    · exact absurd rfl h2

end Shashki

namespace Shashki

theorem make_moving (mp : Piece) (tp : Nat) (ap : Option Piece) (pr : Bool) (sb : BitBoard) :
    (Move.make mp tp ap pr sb).moving_piece = mp := by
  rcases ap with _ | a <;> rfl

theorem make_target (mp : Piece) (tp : Nat) (ap : Option Piece) (pr : Bool) (sb : BitBoard) :
    (Move.make mp tp ap pr sb).target_position = tp := by
  rcases ap with _ | a <;> rfl

theorem make_attacked (mp : Piece) (tp : Nat) (ap : Option Piece) (pr : Bool) (sb : BitBoard) :
    (Move.make mp tp ap pr sb).attacked_piece = ap := by
  rcases ap with _ | a <;> rfl

theorem make_promotion (mp : Piece) (tp : Nat) (ap : Option Piece) (pr : Bool) (sb : BitBoard) :
    (Move.make mp tp ap pr sb).promotion = pr := by
  rcases ap with _ | a <;> rfl

theorem make_follow (mp : Piece) (tp : Nat) (ap : Option Piece) (pr : Bool) (sb : BitBoard) :
    (Move.make mp tp ap pr sb).follow_moves = [] := by
  rcases ap with _ | a <;> rfl

/-- The follow-move generation only appends follow moves; all other fields
of the move stay untouched.  same_core m r says r is m with some new
follow moves appended at the end. -/
def same_core (m r : Move) : Prop :=
  r.moving_piece = m.moving_piece ∧ r.target_position = m.target_position ∧
  r.attacked_piece = m.attacked_piece ∧ r.promotion = m.promotion ∧
  r.source_bit_board = m.source_bit_board ∧ r.target_bit_board = m.target_bit_board ∧
  ∃ new, r.follow_moves = m.follow_moves ++ new

theorem same_core_refl (m : Move) : same_core m m :=
  ⟨rfl, rfl, rfl, rfl, rfl, rfl, [], by simp⟩

theorem same_core_trans {m r s : Move} (h1 : same_core m r) (h2 : same_core r s) :
    same_core m s := by
  obtain ⟨a1, a2, a3, a4, a5, a6, n1, hn1⟩ := h1
  obtain ⟨b1, b2, b3, b4, b5, b6, n2, hn2⟩ := h2
  refine ⟨b1.trans a1, b2.trans a2, b3.trans a3, b4.trans a4, b5.trans a5, b6.trans a6,
    n1 ++ n2, ?_⟩
  rw [hn2, hn1, List.append_assoc]

theorem same_core_add_follow (m f : Move) : same_core m (m.add_follow_move f) := by
  cases m
  exact ⟨rfl, rfl, rfl, rfl, rfl, rfl, [f], rfl⟩

theorem same_core_foldl (s : Move → Nat → Move) (hs : ∀ acc b, same_core acc (s acc b)) :
    ∀ (l : List Nat) (acc : Move), same_core acc (l.foldl s acc)
  | [], acc => same_core_refl acc
  | b :: bs, acc => same_core_trans (hs acc b) (same_core_foldl s hs bs (s acc b))

theorem follow_generation_core : ∀ fuel : Nat,
    (∀ c m, same_core m (generate_follow_moves fuel c m)) ∧
    (∀ md c m, same_core m (generate_follow_move fuel md c m)) ∧
    (∀ md c mbb cnt m, same_core m (follow_move_before_enemy fuel md c mbb cnt m)) ∧
    (∀ md c mbb mc ac m, same_core m (follow_move_after_enemy fuel md c mbb mc ac m)) ∧
    (∀ md c m4 mc ac bits acc, same_core acc (emit_follow_loop fuel md c m4 mc ac bits acc))
  | 0 => by
    refine ⟨fun c m => ?_, fun md c m => ?_, fun md c mbb cnt m => ?_,
      fun md c mbb mc ac m => ?_, fun md c m4 mc ac bits acc => ?_⟩ <;>
      exact same_core_refl _
  | fuel + 1 => by
    obtain ⟨ihg, ihgm, ihb, iha, ihe⟩ := follow_generation_core fuel
    refine ⟨fun c m => ?_, fun md c m => ?_, fun md c mbb cnt m => ?_,
      fun md c mbb mc ac m => ?_, fun md c m4 mc ac bits acc => ?_⟩
    · rw [generate_follow_moves]
      exact same_core_trans (ihgm _ _ _) (same_core_trans (ihgm _ _ _)
        (same_core_trans (ihgm _ _ _) (ihgm _ _ _)))
    · rw [generate_follow_move]
      exact ihb _ _ _ _ _
    · rw [follow_move_before_enemy]
      split
      · exact same_core_refl m
      · split
        · exact same_core_trans (ihb _ _ _ _ _) (iha _ _ _ _ _ _)
        · exact iha _ _ _ _ _ _
    · rw [follow_move_after_enemy]
      split
      · exact same_core_refl m
      · dsimp only
        split
        · exact same_core_trans (ihe _ _ _ _ _ _ _) (iha _ _ _ _ _ _)
        · exact ihe _ _ _ _ _ _ _
    · cases bits with
      | nil =>
        rw [emit_follow_loop]
        exact same_core_refl acc
      | cons bit rest =>
        rw [emit_follow_loop]
        dsimp only
        refine same_core_trans ?_ (ihe _ _ _ _ _ _ _)
        split
        · exact same_core_add_follow _ _
        · exact same_core_refl acc
end Shashki

namespace Shashki

theorem attack_moves_capture : ∀ fuel : Nat,
    (∀ bb s pt md c mbb cnt m, m ∈ move_before_enemy fuel bb s pt md c mbb cnt →
      m.attacked_piece.isSome = true) ∧
    (∀ bb s pt md c mbb mc ac m, m ∈ move_after_enemy fuel bb s pt md c mbb mc ac →
      m.attacked_piece.isSome = true)
  | 0 => by
    constructor
    · intro bb s pt md c mbb cnt m h
      rw [move_before_enemy] at h
      exact absurd h (List.not_mem_nil m)
    · intro bb s pt md c mbb mc ac m h
      rw [move_after_enemy] at h
      exact absurd h (List.not_mem_nil m)
  | fuel + 1 => by
    obtain ⟨ihb, iha⟩ := attack_moves_capture fuel
    constructor
    · intro bb s pt md c mbb cnt m h
      rw [move_before_enemy] at h
      dsimp only at h
      split at h
      · exact absurd h (List.not_mem_nil m)
      · rcases List.mem_append.1 h with h1 | h1
        · split at h1
          · exact ihb _ _ _ _ _ _ _ _ h1
          · exact absurd h1 (List.not_mem_nil m)
        · exact iha _ _ _ _ _ _ _ _ _ h1
    · intro bb s pt md c mbb mc ac m h
      rw [move_after_enemy] at h
      dsimp only at h
      split at h
      · exact absurd h (List.not_mem_nil m)
      · rcases List.mem_append.1 h with h1 | h1
        · obtain ⟨bit, hbit, h2⟩ := List.mem_flatMap.1 h1
          split at h2
          · rw [List.mem_singleton] at h2
            subst h2
            rw [((follow_generation_core fuel).1 _ _).2.2.1, make_attacked]
            rfl
          · exact absurd h2 (List.not_mem_nil m)
        · split at h1
          · exact iha _ _ _ _ _ _ _ _ _ h1
          · exact absurd h1 (List.not_mem_nil m)

theorem normal_moves_fields : ∀ fuel : Nat, ∀ bb s pt md mbb cnt m,
    m ∈ generate_normal_moves_with_bit_board fuel bb s pt md mbb cnt →
    m.attacked_piece = none ∧ m.follow_moves = []
  | 0 => by
    intro bb s pt md mbb cnt m h
    rw [generate_normal_moves_with_bit_board] at h
    exact absurd h (List.not_mem_nil m)
  | fuel + 1 => by
    intro bb s pt md mbb cnt m h
    rw [generate_normal_moves_with_bit_board] at h
    dsimp only at h
    split at h
    · exact absurd h (List.not_mem_nil m)
    · rcases List.mem_append.1 h with h1 | h1
      · obtain ⟨bit, hbit, h2⟩ := List.mem_flatMap.1 h1
        split at h2
        · rw [List.mem_singleton] at h2
          subst h2
          exact ⟨make_attacked _ _ _ _ _, make_follow _ _ _ _ _⟩
        · exact absurd h2 (List.not_mem_nil m)
      · split at h1
        · exact normal_moves_fields fuel _ _ _ _ _ _ _ h1
        · exact absurd h1 (List.not_mem_nil m)

theorem attack_moves_all_capture (bb : BitBoard) (s : Side) :
    ∀ m ∈ generate_attack_moves_all bb s, m.attacked_piece.isSome = true := by
  intro m hm
  rw [generate_attack_moves_all] at hm
  simp only [List.mem_append] at hm
  rcases hm with ((((((h | h) | h) | h) | h) | h) | h) | h <;>
    exact (attack_moves_capture GEN_FUEL).1 _ _ _ _ _ _ _ _ h

theorem normal_moves_all_fields (bb : BitBoard) (s : Side) :
    ∀ m ∈ generate_normal_moves_all bb s, m.attacked_piece = none ∧ m.follow_moves = [] := by
  intro m hm
  cases s <;>
  · rw [generate_normal_moves_all] at hm
    simp only [List.mem_append] at hm
    rcases hm with ((((h | h) | h) | h) | h) | h <;>
      exact normal_moves_fields GEN_FUEL _ _ _ _ _ _ _ h

/-- Claim C1: capture moves are generated first and non-captures only when
no capture move exists, so whenever the returned list holds one capture it
holds only captures, and a non-capture in the returned list certifies that
the attack phase of the generator produced nothing for that side and
board. -/
theorem C1_captures_obligatory (bb : BitBoard) (s : Side) :
    ((generate_moves_for_side bb s).any (fun m => m.attacked_piece.isSome) = true →
      (generate_moves_for_side bb s).all (fun m => m.attacked_piece.isSome) = true) ∧
    ((generate_moves_for_side bb s).any (fun m => m.attacked_piece.isNone) = true →
      generate_attack_moves_all bb s = []) := by
  rw [generate_moves_for_side]
  split
  · rename_i hempty
    constructor
    · intro hany
      obtain ⟨m, hm, hsome⟩ := List.any_eq_true.1 hany
      rw [(normal_moves_all_fields bb s m hm).1] at hsome
      exact absurd hsome (by simp)
    · intro _
      exact List.isEmpty_iff.1 hempty
  · constructor
    · intro _
      exact List.all_eq_true.2 (fun m hm => attack_moves_all_capture bb s m hm)
    · intro hany
      obtain ⟨m, hm, hnone⟩ := List.any_eq_true.1 hany
      have hsome := attack_moves_all_capture bb s m hm
      rcases hap : m.attacked_piece with _ | a
      · rw [hap] at hsome
        exact absurd hsome (by simp)
      · rw [hap] at hnone
        exact absurd hnone (by simp)

/-- Witness for C1 on a concrete board with a capture (the board of the
concrete game cg_g2, where White must take F4-G5-H6): some returned move
is a capture, hence all returned moves are captures. -/
theorem C1_captures_obligatory_witness :
    ((generate_moves_for_side cg_g2.bit_board .WHITE).any
        (fun m => m.attacked_piece.isSome) = true) ∧
    ((generate_moves_for_side cg_g2.bit_board .WHITE).all
        (fun m => m.attacked_piece.isSome) = true) :=
  ⟨by decide, (C1_captures_obligatory cg_g2.bit_board .WHITE).1 (by decide)⟩

end Shashki

namespace Shashki

mutual

/-- The capture-chain soundness check of claim C7, relative to an already
captured mask c: every follow move of the node is a capture of a square
outside c, made by the same piece (same side, starting from the landing
square of the node), and its own subtree passes the check with the mask
extended by that square. -/
def Move.chain_check_from (c : Nat) : Move → Bool
  | .mk mp tp _ _ _ _ fm => chain_check_list c mp.side tp fm

/-- The check of one follow move f of a node with side s and landing
square tp (see Move.chain_check_from). -/
def follow_ok (c : Nat) (s : Side) (tp : Nat) (f : Move) : Bool :=
  match f.attacked_piece with
  | some a => !(c.testBit a.position) && (f.moving_piece.side == s) &&
      (f.moving_piece.position == tp) && Move.chain_check_from (c ||| shl64 1 a.position) f
  | none => false

/-- The conjunction of follow_ok over a follow list. -/
def chain_check_list (c : Nat) (s : Side) (tp : Nat) : List Move → Bool
  | [] => true
  | f :: fs => follow_ok c s tp f && chain_check_list c s tp fs

end

/-- The C7 check for a root move coming from generate_moves_for_side: a
non-capture has no follow moves at all, a capture passes chain_check_from
with the mask holding its own captured square. -/
def chain_check_root_side (m : Move) : Bool :=
  match m.attacked_piece with
  | none => m.follow_moves.isEmpty
  | some a => m.chain_check_from (shl64 1 a.position)

/-- The C7 check for a root move coming from generate_moves_for_piece
under an inherited capture mask c0: the move is a capture of a square
outside c0 and its subtree passes the check with c0 extended by it. -/
def chain_check_root_piece (c0 : Nat) (m : Move) : Bool :=
  match m.attacked_piece with
  | none => false
  | some a => !(c0.testBit a.position) && m.chain_check_from (c0 ||| shl64 1 a.position)

/-- The property a direction record ties between its shift function and
its signed step value: every set bit of a shifted word comes from a set
bit one step back. -/
def dir_spec (md : MoveDirection) : Prop :=
  ∀ x j, (md.bit_operation x).testBit j = true →
    ∃ i : Nat, (i : Int) = (j : Int) - md.position_move ∧ x.testBit i = true

theorem dir_spec_LEFT_UP : dir_spec LEFT_UP := by
  intro x j h
  rw [LEFT_UP] at h ⊢
  dsimp only at h ⊢
  rw [testBit_shl64] at h
  simp only [Bool.and_eq_true, decide_eq_true_iff] at h
  obtain ⟨⟨h1, h2⟩, h3⟩ := h
  exact ⟨j - 9, by push_cast [h2]; ring, h3⟩

theorem dir_spec_RIGHT_UP : dir_spec RIGHT_UP := by
  intro x j h
  rw [RIGHT_UP] at h ⊢
  dsimp only at h ⊢
  rw [testBit_shl64] at h
  simp only [Bool.and_eq_true, decide_eq_true_iff] at h
  obtain ⟨⟨h1, h2⟩, h3⟩ := h
  exact ⟨j - 7, by push_cast [h2]; ring, h3⟩

theorem dir_spec_LEFT_DOWN : dir_spec LEFT_DOWN := by
  intro x j h
  rw [LEFT_DOWN] at h ⊢
  dsimp only at h ⊢
  rw [Nat.testBit_shiftRight] at h
  exact ⟨7 + j, by push_cast; ring, h⟩

theorem dir_spec_RIGHT_DOWN : dir_spec RIGHT_DOWN := by
  intro x j h
  rw [RIGHT_DOWN] at h ⊢
  dsimp only at h ⊢
  rw [Nat.testBit_shiftRight] at h
  exact ⟨9 + j, by push_cast; ring, h⟩

/-- Invariant of the attack sets flowing through move_after_enemy: tracing
every set bit back attack_count minus one steps lands on the square of the
attacked enemy, which is not in the capture mask. -/
def attack_fresh (md : MoveDirection) (c ac mbb : Nat) : Prop :=
  ∀ j : Nat, mbb.testBit j = true →
    ∃ e : Nat, (e : Int) = (j : Int) - ((ac : Int) - 1) * md.position_move ∧
      c.testBit e = false

/-- Invariant of the single-piece boards flowing through the follow-move
generation: tracing every set bit back move_count minus one steps lands on
the landing square tp of the move being extended. -/
def source_aligned (md : MoveDirection) (tp mc mbb : Nat) : Prop :=
  ∀ j : Nat, mbb.testBit j = true → (j : Int) - ((mc : Int) - 1) * md.position_move = (tp : Int)

theorem testBit_and_elim {x y : Nat} {j : Nat} (h : (x &&& y).testBit j = true) :
    x.testBit j = true ∧ y.testBit j = true := by
  rw [Nat.testBit_and, Bool.and_eq_true] at h
  exact h

theorem testBit_not64_elim {c j : Nat} (h : (not64 c).testBit j = true) :
    j < 64 ∧ c.testBit j = false := by
  rw [testBit_not64] at h
  simp only [Bool.and_eq_true, decide_eq_true_iff, Bool.not_eq_true'] at h
  exact h

theorem attack_fresh_mono {md : MoveDirection} {c ac mbb mbb2 : Nat}
    (h : attack_fresh md c ac mbb)
    (hsub : ∀ j, mbb2.testBit j = true → mbb.testBit j = true) :
    attack_fresh md c ac mbb2 :=
  fun j hj => h j (hsub j hj)

theorem source_aligned_mono {md : MoveDirection} {tp mc mbb mbb2 : Nat}
    (h : source_aligned md tp mc mbb)
    (hsub : ∀ j, mbb2.testBit j = true → mbb.testBit j = true) :
    source_aligned md tp mc mbb2 :=
  fun j hj => h j (hsub j hj)

theorem attack_fresh_shift {md : MoveDirection} {c ac mbb : Nat} (hmd : dir_spec md)
    (h : attack_fresh md c ac mbb) :
    attack_fresh md c (ac + 1) (md.bit_operation mbb) := by
  intro j hj
  obtain ⟨i, hi, hxi⟩ := hmd mbb j hj
  obtain ⟨e, he, hce⟩ := h i hxi
  refine ⟨e, ?_, hce⟩
  rw [he, hi]
  push_cast
  ring

theorem source_aligned_shift {md : MoveDirection} {tp mc mbb : Nat} (hmd : dir_spec md)
    (h : source_aligned md tp mc mbb) :
    source_aligned md tp (mc + 1) (md.bit_operation mbb) := by
  intro j hj
  obtain ⟨i, hi, hxi⟩ := hmd mbb j hj
  have := h i hxi
  rw [hi] at this
  push_cast at this ⊢
  linarith

theorem attack_fresh_init (md : MoveDirection) (c x : Nat) :
    attack_fresh md c 1 (x &&& not64 c) := by
  intro j hj
  obtain ⟨hx, hn⟩ := testBit_and_elim hj
  obtain ⟨hj64, hcj⟩ := testBit_not64_elim hn
  exact ⟨j, by push_cast; ring, hcj⟩

theorem source_aligned_init (md : MoveDirection) (tp : Nat) :
    source_aligned md tp 1 (shl64 1 tp) := by
  intro j hj
  rw [testBit_shl64_one] at hj
  simp only [Bool.and_eq_true, decide_eq_true_iff] at hj
  rw [hj.2]
  push_cast
  ring

theorem chain_check_make (c : Nat) (mp : Piece) (tp : Nat) (ap : Option Piece) (pr : Bool)
    (sb : BitBoard) : (Move.make mp tp ap pr sb).chain_check_from c = true := by
  rcases ap with _ | a <;> simp [Move.make, Move.chain_check_from, chain_check_list]

theorem chain_check_list_append (c : Nat) (s : Side) (tp : Nat) :
    ∀ (l1 l2 : List Move),
      chain_check_list c s tp (l1 ++ l2) =
        (chain_check_list c s tp l1 && chain_check_list c s tp l2)
  | [], l2 => by simp [chain_check_list]
  | f :: fs, l2 => by
    rw [List.cons_append, chain_check_list, chain_check_list,
      chain_check_list_append c s tp fs l2, Bool.and_assoc]

end Shashki

namespace Shashki

theorem shl64_one_of_ge {p : Nat} (hp : ¬ p < 64) : shl64 1 p = 0 := by
  rw [shl64, Nat.one_shiftLeft, U64]
  exact Nat.dvd_iff_mod_eq_zero.1 (pow_dvd_pow 2 (Nat.le_of_not_lt hp))

theorem and_shl64_one_elim {x p : Nat} (h : x &&& shl64 1 p ≠ 0) :
    p < 64 ∧ x.testBit p = true := by
  by_cases hp : p < 64
  · exact ⟨hp, (and_shl64_one_ne_zero x p hp).1 h⟩
  · rw [shl64_one_of_ge hp, Nat.and_zero] at h
    exact absurd rfl h

theorem chain_check_add_follow (c : Nat) (m f : Move) :
    (m.add_follow_move f).chain_check_from c =
      (m.chain_check_from c && follow_ok c m.moving_piece.side m.target_position f) := by
  cases m with
  | mk mp tp ap pr sb tb fm =>
    rw [Move.add_follow_move, Move.chain_check_from, Move.chain_check_from,
      chain_check_list_append, chain_check_list, chain_check_list]
    simp [Move.moving_piece, Move.target_position]

theorem chain_foldl (c : Nat) (m : Move) (s : Move → Nat → Move)
    (hstep : ∀ acc b, same_core m acc → Move.chain_check_from c acc = true →
      same_core m (s acc b) ∧ Move.chain_check_from c (s acc b) = true) :
    ∀ (l : List Nat) (acc : Move), same_core m acc → Move.chain_check_from c acc = true →
      same_core m (l.foldl s acc) ∧ Move.chain_check_from c (l.foldl s acc) = true
  | [], acc, hc, hch => ⟨hc, hch⟩
  | b :: bs, acc, hc, hch => by
    obtain ⟨hc1, hch1⟩ := hstep acc b hc hch
    exact chain_foldl c m s hstep bs (s acc b) hc1 hch1

end Shashki

namespace Shashki

theorem natCast_succ_sub_one (n : Nat) : (((n + 1 : Nat)) : Int) - 1 = (n : Int) := by
  push_cast
  ring

theorem follow_generation_chain : ∀ fuel : Nat,
    (∀ c m, m.chain_check_from c = true →
      (generate_follow_moves fuel c m).chain_check_from c = true) ∧
    (∀ md c m, dir_spec md → m.chain_check_from c = true →
      (generate_follow_move fuel md c m).chain_check_from c = true) ∧
    (∀ md c mbb mc m, dir_spec md → source_aligned md m.target_position mc mbb →
      m.chain_check_from c = true →
      (follow_move_before_enemy fuel md c mbb mc m).chain_check_from c = true) ∧
    (∀ md c mbb mc ac m, dir_spec md → source_aligned md m.target_position mc mbb →
      attack_fresh md c ac mbb → m.chain_check_from c = true →
      (follow_move_after_enemy fuel md c mbb mc ac m).chain_check_from c = true) ∧
    (∀ md c m4 mc ac bits acc, source_aligned md acc.target_position (mc + 1) m4 →
      attack_fresh md c (ac + 1) m4 → acc.chain_check_from c = true →
      (emit_follow_loop fuel md c m4 mc ac bits acc).chain_check_from c = true)
  | 0 => by
    refine ⟨fun c m h => ?_, fun md c m _ h => ?_, fun md c mbb mc m _ _ h => ?_,
      fun md c mbb mc ac m _ _ _ h => ?_, fun md c m4 mc ac bits acc _ _ h => ?_⟩
    · rw [generate_follow_moves]
      exact h
    · rw [generate_follow_move]
      exact h
    · rw [follow_move_before_enemy]
      exact h
    · rw [follow_move_after_enemy]
      exact h
    · rw [emit_follow_loop]
      exact h
  | fuel + 1 => by
    obtain ⟨ihg, ihgm, ihb, iha, ihe⟩ := follow_generation_chain fuel
    refine ⟨fun c m h => ?_, fun md c m hmd h => ?_, fun md c mbb mc m hmd hal h => ?_,
      fun md c mbb mc ac m hmd hal hfr h => ?_,
      fun md c m4 mc ac bits acc hal hfr h => ?_⟩
    · rw [generate_follow_moves]
      exact ihgm _ _ _ dir_spec_RIGHT_DOWN (ihgm _ _ _ dir_spec_LEFT_DOWN
        (ihgm _ _ _ dir_spec_RIGHT_UP (ihgm _ _ _ dir_spec_LEFT_UP h)))
    · rw [generate_follow_move]
      exact ihb _ _ _ _ _ hmd (source_aligned_init md m.target_position) h
    · rw [follow_move_before_enemy]
      dsimp only
      split
      · exact h
      · split
        · refine iha _ _ _ _ _ _ hmd ?_ ?_ ?_
          · rw [((follow_generation_core fuel).2.2.1 _ _ _ _ _).2.1]
            exact source_aligned_mono (source_aligned_shift hmd (source_aligned_mono hal
              (fun j hj => (testBit_and_elim hj).1)))
              (fun j hj => (testBit_and_elim (testBit_and_elim hj).1).1)
          · exact attack_fresh_mono (attack_fresh_init md c _)
              (fun j hj => (testBit_and_elim hj).1)
          · exact ihb _ _ _ _ _ hmd (source_aligned_mono (source_aligned_shift hmd
              (source_aligned_mono hal (fun j hj => (testBit_and_elim hj).1)))
              (fun j hj => (testBit_and_elim (testBit_and_elim hj).1).1)) h
        · refine iha _ _ _ _ _ _ hmd ?_ ?_ h
          · exact source_aligned_mono (source_aligned_shift hmd (source_aligned_mono hal
              (fun j hj => (testBit_and_elim hj).1)))
              (fun j hj => (testBit_and_elim (testBit_and_elim hj).1).1)
          · exact attack_fresh_mono (attack_fresh_init md c _)
              (fun j hj => (testBit_and_elim hj).1)
    · rw [follow_move_after_enemy]
      dsimp only
      split
      · exact h
      · have hal4 : source_aligned md m.target_position (mc + 1)
            (md.bit_operation (mbb &&& not64 md.normal_wall) &&&
              not64 m.target_bit_board.blocking_board &&& not64 c) :=
          source_aligned_mono (source_aligned_shift hmd (source_aligned_mono hal
            (fun j hj => (testBit_and_elim hj).1)))
            (fun j hj => (testBit_and_elim (testBit_and_elim hj).1).1)
        have hfr4 : attack_fresh md c (ac + 1)
            (md.bit_operation (mbb &&& not64 md.normal_wall) &&&
              not64 m.target_bit_board.blocking_board &&& not64 c) :=
          attack_fresh_mono (attack_fresh_shift hmd (attack_fresh_mono hfr
            (fun j hj => (testBit_and_elim hj).1)))
            (fun j hj => (testBit_and_elim (testBit_and_elim hj).1).1)
        split
        · refine iha _ _ _ _ _ _ hmd ?_ ?_ ?_
          · rw [((follow_generation_core fuel).2.2.2.2 _ _ _ _ _ _ _).2.1]
            exact hal4
          · exact hfr4
          · exact ihe _ _ _ _ _ _ _ hal4 hfr4 h
        · exact ihe _ _ _ _ _ _ _ hal4 hfr4 h
    · cases bits with
      | nil =>
        rw [emit_follow_loop]
        exact h
      | cons bit rest =>
        rw [emit_follow_loop]
        dsimp only
        refine ihe _ _ _ _ _ _ _ ?_ hfr ?_
        · split
          · rw [(same_core_add_follow _ _).2.1]
            exact hal
          · exact hal
        · split
          · rename_i hcond
            obtain ⟨hbit64, hbit⟩ := and_shl64_one_elim hcond
            obtain ⟨e, he, hce⟩ := hfr bit hbit
            rw [natCast_succ_sub_one] at he
            have htp := hal bit hbit
            rw [natCast_succ_sub_one] at htp
            have hapos : ((bit : Int) - (ac : Int) * md.position_move).toNat = e := by
              rw [he.symm, Int.toNat_natCast]
            have hsrc : ((bit : Int) - (mc : Int) * md.position_move).toNat =
                acc.target_position := by
              rw [htp, Int.toNat_natCast]
            rw [chain_check_add_follow, h, Bool.true_and, hapos, hsrc]
            rw [follow_ok]
            rw [((follow_generation_core fuel).1 _ _).2.2.1, make_attacked]
            dsimp only
            rw [((follow_generation_core fuel).1 _ _).1, make_moving]
            dsimp only
            rw [hce, side_beq_self]
            simp only [Bool.not_false, Bool.true_and, beq_self_eq_true]
            exact ihg _ _ (chain_check_make _ _ _ _ _ _)
          · exact h

end Shashki

namespace Shashki

/-- A root move emitted by the attack phase under capture mask c is a
capture of a square outside c whose subtree passes the chain check with c
extended by that square. -/
def root_good (c : Nat) (m : Move) : Prop :=
  ∃ a, m.attacked_piece = some a ∧ c.testBit a.position = false ∧
    m.chain_check_from (c ||| shl64 1 a.position) = true

theorem attack_list_chain : ∀ fuel : Nat,
    (∀ bb s pt md c mbb mc, dir_spec md →
      ∀ m ∈ move_before_enemy fuel bb s pt md c mbb mc, root_good c m) ∧
    (∀ bb s pt md c mbb mc ac, dir_spec md → attack_fresh md c ac mbb →
      ∀ m ∈ move_after_enemy fuel bb s pt md c mbb mc ac, root_good c m)
  | 0 => by
    constructor
    · intro bb s pt md c mbb mc _ m h
      rw [move_before_enemy] at h
      exact absurd h (List.not_mem_nil m)
    · intro bb s pt md c mbb mc ac _ _ m h
      rw [move_after_enemy] at h
      exact absurd h (List.not_mem_nil m)
  | fuel + 1 => by
    obtain ⟨ihb, iha⟩ := attack_list_chain fuel
    constructor
    · intro bb s pt md c mbb mc hmd m h
      rw [move_before_enemy] at h
      dsimp only at h
      split at h
      · exact absurd h (List.not_mem_nil m)
      · rcases List.mem_append.1 h with h1 | h1
        · split at h1
          · exact ihb _ _ _ _ _ _ _ hmd m h1
          · exact absurd h1 (List.not_mem_nil m)
        · exact iha _ _ _ _ _ _ _ _ hmd
            (attack_fresh_mono (attack_fresh_init md c _)
              (fun j hj => (testBit_and_elim hj).1)) m h1
    · intro bb s pt md c mbb mc ac hmd hfr m h
      rw [move_after_enemy] at h
      dsimp only at h
      split at h
      · exact absurd h (List.not_mem_nil m)
      · have hfr4 : attack_fresh md c (ac + 1)
            (md.bit_operation (mbb &&& not64 md.normal_wall) &&&
              not64 bb.blocking_board &&& not64 c) :=
          attack_fresh_mono (attack_fresh_shift hmd (attack_fresh_mono hfr
            (fun j hj => (testBit_and_elim hj).1)))
            (fun j hj => (testBit_and_elim (testBit_and_elim hj).1).1)
        rcases List.mem_append.1 h with h1 | h1
        · obtain ⟨bit, hbitmem, h2⟩ := List.mem_flatMap.1 h1
          split at h2
          · rename_i hcond
            rw [List.mem_singleton] at h2
            subst h2
            obtain ⟨hbit64, hbit⟩ := and_shl64_one_elim hcond
            obtain ⟨e, he, hce⟩ := hfr4 bit hbit
            rw [natCast_succ_sub_one] at he
            have hapos : ((bit : Int) - (ac : Int) * md.position_move).toNat = e := by
              rw [he.symm, Int.toNat_natCast]
            rw [hapos]
            refine ⟨⟨side_opposite s, bb.piece_type_on_position e, e⟩, ?_, hce, ?_⟩
            · rw [((follow_generation_core fuel).1 _ _).2.2.1, make_attacked]
            · exact (follow_generation_chain fuel).1 _ _ (chain_check_make _ _ _ _ _ _)
          · exact absurd h2 (List.not_mem_nil m)
        · split at h1
          · exact iha _ _ _ _ _ _ _ _ hmd hfr4 m h1
          · exact absurd h1 (List.not_mem_nil m)

/-- Claim C7: in every move tree returned by generate_moves_for_side or
generate_moves_for_piece, every root-to-leaf path longer than one ply is a
chain of captures by the same piece (same side, each ply starting on the
landing square of the previous one), whose set of captured squares grows by
a fresh square at every ply, so no square is captured twice on any path;
non-capture roots have no follow moves at all. -/
theorem C7_capture_chains :
    (∀ bb s, (generate_moves_for_side bb s).all chain_check_root_side = true) ∧
    (∀ bb p c0, (generate_moves_for_piece bb p c0).all (chain_check_root_piece c0) = true) := by
  constructor
  · intro bb s
    refine List.all_eq_true.2 (fun m hm => ?_)
    rw [generate_moves_for_side] at hm
    split at hm
    · obtain ⟨h1, h2⟩ := normal_moves_all_fields bb s m hm
      rw [chain_check_root_side, h1]
      dsimp only
      rw [h2]
      rfl
    · have hg : root_good 0 m := by
        rw [generate_attack_moves_all] at hm
        simp only [List.mem_append] at hm
        rcases hm with ((((((h | h) | h) | h) | h) | h) | h) | h
        · exact (attack_list_chain GEN_FUEL).1 _ _ _ _ _ _ _ dir_spec_LEFT_UP m h
        · exact (attack_list_chain GEN_FUEL).1 _ _ _ _ _ _ _ dir_spec_RIGHT_UP m h
        · exact (attack_list_chain GEN_FUEL).1 _ _ _ _ _ _ _ dir_spec_LEFT_DOWN m h
        · exact (attack_list_chain GEN_FUEL).1 _ _ _ _ _ _ _ dir_spec_RIGHT_DOWN m h
        · exact (attack_list_chain GEN_FUEL).1 _ _ _ _ _ _ _ dir_spec_LEFT_UP m h
        · exact (attack_list_chain GEN_FUEL).1 _ _ _ _ _ _ _ dir_spec_RIGHT_UP m h
        · exact (attack_list_chain GEN_FUEL).1 _ _ _ _ _ _ _ dir_spec_LEFT_DOWN m h
        · exact (attack_list_chain GEN_FUEL).1 _ _ _ _ _ _ _ dir_spec_RIGHT_DOWN m h
      obtain ⟨a, hat, _, hchain⟩ := hg
      rw [chain_check_root_side, hat]
      dsimp only
      rw [Nat.zero_or] at hchain
      exact hchain
  · intro bb p c0
    refine List.all_eq_true.2 (fun m hm => ?_)
    have hg : root_good c0 m := by
      rw [generate_moves_for_piece] at hm
      simp only [List.mem_append] at hm
      rcases hm with ((h | h) | h) | h
      · exact (attack_list_chain GEN_FUEL).1 _ _ _ _ _ _ _ dir_spec_LEFT_UP m h
      · exact (attack_list_chain GEN_FUEL).1 _ _ _ _ _ _ _ dir_spec_RIGHT_UP m h
      · exact (attack_list_chain GEN_FUEL).1 _ _ _ _ _ _ _ dir_spec_LEFT_DOWN m h
      · exact (attack_list_chain GEN_FUEL).1 _ _ _ _ _ _ _ dir_spec_RIGHT_DOWN m h
    obtain ⟨a, hat, hc0, hchain⟩ := hg
    rw [chain_check_root_piece, hat]
    dsimp only
    rw [hc0, hchain]
    rfl

end Shashki

namespace Shashki

mutual

/-- compare_follow_moves_to_bit_board holds exactly at the terminal boards
of the move tree. -/
theorem compare_iff_mem_terminal (b : BitBoard) :
    ∀ (m : Move), m.compare_follow_moves_to_bit_board b = true ↔ b ∈ m.terminal_bit_boards
  | .mk mp tp ap pr sb tb fm => by
    rw [Move.compare_follow_moves_to_bit_board, Move.terminal_bit_boards]
    split
    · simp only [beq_iff_eq, List.mem_singleton]
      exact eq_comm
    · exact compare_fm_iff_mem b fm

/-- List form of compare_iff_mem_terminal: the any_of over a follow list
holds exactly at the terminal boards collected from that list. -/
theorem compare_fm_iff_mem (b : BitBoard) :
    ∀ (l : List Move), compare_fm_list b l = true ↔ b ∈ terminal_fm_list l
  | [] => by simp [compare_fm_list, terminal_fm_list]
  | f :: fs => by
    rw [compare_fm_list, terminal_fm_list]
    simp only [Bool.or_eq_true, List.mem_append]
    rw [compare_iff_mem_terminal b f, compare_fm_iff_mem b fs]

end

mutual

/-- Every move tree has at least one terminal board. -/
theorem Move.terminal_ne : ∀ (m : Move), m.terminal_bit_boards ≠ []
  | .mk mp tp ap pr sb tb fm => by
    rw [Move.terminal_bit_boards]
    split
    · simp
    · rename_i hfm
      cases fm with
      | nil => simp at hfm
      | cons f fs => exact terminal_fm_ne f fs

/-- List form of Move.terminal_ne for a nonempty follow list. -/
theorem terminal_fm_ne : ∀ (f : Move) (fs : List Move), terminal_fm_list (f :: fs) ≠ []
  | f, fs => by
    rw [terminal_fm_list]
    intro hcontra
    exact Move.terminal_ne f (List.append_eq_nil.1 hcontra).1

end

/-- The White child loop of build_and_evaluate with a depth-zero child
evaluator and a root (none) ancestor is a first-win argmax: when the window
is open (alpha below beta and every child evaluation below beta) no cutoff
fires, and the loop either keeps its accumulator (no child beats it) or
returns the evaluation of the first child attaining the maximum, tagged
with that child. -/
theorem ab_loop_white_argmax
    (f : BitBoard → Int → Int → Option BitBoard → Int × Option BitBoard)
    (hf : ∀ c a b o, f c a b o = (evaluate_bit_board c, o)) :
    ∀ (l : List BitBoard) (m0 : Int) (o0 : Option BitBoard) (alpha beta : Int),
      alpha < beta →
      (∀ c ∈ l, evaluate_bit_board c < beta) →
      (ab_loop_white f l (m0, o0) alpha beta none = (m0, o0) ∧
        ∀ c ∈ l, evaluate_bit_board c ≤ m0) ∨
      (∃ c ∈ l, ab_loop_white f l (m0, o0) alpha beta none =
          (evaluate_bit_board c, some c) ∧ m0 < evaluate_bit_board c ∧
        ∀ c' ∈ l, evaluate_bit_board c' ≤ evaluate_bit_board c)
  | [] => by
    intro m0 o0 alpha beta _ _
    left
    rw [ab_loop_white]
    exact ⟨rfl, by simp⟩
  | child :: rest => by
    intro m0 o0 alpha beta hab hb
    have hE : evaluate_bit_board child < beta := hb child (List.mem_cons_self child rest)
    have hrest : ∀ c ∈ rest, evaluate_bit_board c < beta :=
      fun c hc => hb c (List.mem_cons_of_mem child hc)
    rw [ab_loop_white]
    dsimp only
    rw [hf]
    dsimp only
    have hcut : ¬ beta ≤
        (if evaluate_bit_board child > alpha then evaluate_bit_board child else alpha) := by
      split <;> omega
    rw [if_neg hcut]
    have halpha1 :
        (if evaluate_bit_board child > alpha then evaluate_bit_board child else alpha) < beta := by
      split <;> omega
    by_cases hEm : evaluate_bit_board child > m0
    · rw [if_pos hEm]
      rcases ab_loop_white_argmax f hf rest (evaluate_bit_board child) (some child)
          (if evaluate_bit_board child > alpha then evaluate_bit_board child else alpha) beta
          halpha1 hrest with ⟨heq, hub⟩ | ⟨c, hc, heq, hgt, hub⟩
      · right
        refine ⟨child, List.mem_cons_self child rest, heq, hEm, ?_⟩
        intro c' hc'
        rcases List.mem_cons.1 hc' with h1 | h1
        · subst h1; exact le_refl _
        · exact hub c' h1
      · right
        refine ⟨c, List.mem_cons_of_mem child hc, heq, lt_trans hEm hgt, ?_⟩
        intro c' hc'
        rcases List.mem_cons.1 hc' with h1 | h1
        · subst h1; exact le_of_lt hgt
        · exact hub c' h1
    · rw [if_neg hEm]
      rcases ab_loop_white_argmax f hf rest m0 o0
          (if evaluate_bit_board child > alpha then evaluate_bit_board child else alpha) beta
          halpha1 hrest with ⟨heq, hub⟩ | ⟨c, hc, heq, hgt, hub⟩
      · left
        refine ⟨heq, ?_⟩
        intro c' hc'
        rcases List.mem_cons.1 hc' with h1 | h1
        · subst h1; omega
        · exact hub c' h1
      · right
        refine ⟨c, List.mem_cons_of_mem child hc, heq, hgt, ?_⟩
        intro c' hc'
        rcases List.mem_cons.1 hc' with h1 | h1
        · subst h1; omega
        · exact hub c' h1

/-- The Black child loop of build_and_evaluate with a depth-zero child
evaluator and a root (none) ancestor is a first-win argmin, the mirror of
ab_loop_white_argmax. -/
theorem ab_loop_black_argmin
    (f : BitBoard → Int → Int → Option BitBoard → Int × Option BitBoard)
    (hf : ∀ c a b o, f c a b o = (evaluate_bit_board c, o)) :
    ∀ (l : List BitBoard) (m0 : Int) (o0 : Option BitBoard) (alpha beta : Int),
      alpha < beta →
      (∀ c ∈ l, alpha < evaluate_bit_board c) →
      (ab_loop_black f l (m0, o0) alpha beta none = (m0, o0) ∧
        ∀ c ∈ l, m0 ≤ evaluate_bit_board c) ∨
      (∃ c ∈ l, ab_loop_black f l (m0, o0) alpha beta none =
          (evaluate_bit_board c, some c) ∧ evaluate_bit_board c < m0 ∧
        ∀ c' ∈ l, evaluate_bit_board c ≤ evaluate_bit_board c')
  | [] => by
    intro m0 o0 alpha beta _ _
    left
    rw [ab_loop_black]
    exact ⟨rfl, by simp⟩
  | child :: rest => by
    intro m0 o0 alpha beta hab hb
    have hE : alpha < evaluate_bit_board child := hb child (List.mem_cons_self child rest)
    have hrest : ∀ c ∈ rest, alpha < evaluate_bit_board c :=
      fun c hc => hb c (List.mem_cons_of_mem child hc)
    rw [ab_loop_black]
    dsimp only
    rw [hf]
    dsimp only
    have hcut : ¬ (if evaluate_bit_board child < beta then evaluate_bit_board child else beta)
        ≤ alpha := by
      split <;> omega
    rw [if_neg hcut]
    have hbeta1 : alpha <
        (if evaluate_bit_board child < beta then evaluate_bit_board child else beta) := by
      split <;> omega
    by_cases hEm : evaluate_bit_board child < m0
    · rw [if_pos hEm]
      rcases ab_loop_black_argmin f hf rest (evaluate_bit_board child) (some child) alpha
          (if evaluate_bit_board child < beta then evaluate_bit_board child else beta)
          hbeta1 hrest with ⟨heq, hub⟩ | ⟨c, hc, heq, hgt, hub⟩
      · right
        refine ⟨child, List.mem_cons_self child rest, heq, hEm, ?_⟩
        intro c' hc'
        rcases List.mem_cons.1 hc' with h1 | h1
        · subst h1; exact le_refl _
        · exact hub c' h1
      · right
        refine ⟨c, List.mem_cons_of_mem child hc, heq, lt_trans hgt hEm, ?_⟩
        intro c' hc'
        rcases List.mem_cons.1 hc' with h1 | h1
        · subst h1; exact le_of_lt hgt
        · exact hub c' h1
    · rw [if_neg hEm]
      rcases ab_loop_black_argmin f hf rest m0 o0 alpha
          (if evaluate_bit_board child < beta then evaluate_bit_board child else beta)
          hbeta1 hrest with ⟨heq, hub⟩ | ⟨c, hc, heq, hgt, hub⟩
      · left
        refine ⟨heq, ?_⟩
        intro c' hc'
        rcases List.mem_cons.1 hc' with h1 | h1
        · subst h1; omega
        · exact hub c' h1
      · right
        refine ⟨c, List.mem_cons_of_mem child hc, heq, hgt, ?_⟩
        intro c' hc'
        rcases List.mem_cons.1 hc' with h1 | h1
        · subst h1; omega
        · exact hub c' h1

end Shashki

namespace Shashki

/-- Claim C3 (amended): for every game that is not inside a move combo, has
at least one legal move, and whose legal moves' terminal boards all evaluate
strictly inside the alpha-beta start window (-100, 100), best_move at depth
1 returns the shrink of a legal move mv to a terminal board b of mv that
maximises (White to move) respectively minimises (Black to move) the static
evaluation over the terminal boards of all legal moves. -/
theorem C3_best_move_depth1 (g : Game)
    (hcombo : g.in_move_combo = false)
    (hne : generate_moves_for_game g ≠ [])
    (hband : ∀ b ∈ (generate_moves_for_game g).flatMap Move.terminal_bit_boards,
      -100 < evaluate_bit_board b ∧ evaluate_bit_board b < 100) :
    ∃ mv b, mv ∈ generate_moves_for_game g ∧ b ∈ mv.terminal_bit_boards ∧
      best_move g 1 = some (mv.shrink_follow_moves_to_bit_board b) ∧
      ∀ b' ∈ (generate_moves_for_game g).flatMap Move.terminal_bit_boards,
        if g.current_turn = .WHITE then evaluate_bit_board b' ≤ evaluate_bit_board b
        else evaluate_bit_board b ≤ evaluate_bit_board b' := by
  have hg : generate_moves_for_game g = generate_moves_for_side g.bit_board g.current_turn := by
    rw [generate_moves_for_game, hcombo]
    simp
  rw [hg] at hne hband ⊢
  cases h : g.current_turn with
  | WHITE =>
    rw [h] at hne hband
    obtain ⟨m1, rest1, hL⟩ := List.exists_cons_of_ne_nil hne
    have hchne : engine_child_boards (generate_moves_for_side g.bit_board .WHITE) ≠ [] := by
      rw [engine_child_boards, hL]
      simp only [List.flatMap_cons]
      intro hcontra
      rw [List.reverse_eq_nil_iff] at hcontra
      exact Move.terminal_ne m1 (List.append_eq_nil.1 hcontra).1
    have hb100 : ∀ c ∈ engine_child_boards (generate_moves_for_side g.bit_board .WHITE),
        evaluate_bit_board c < 100 := by
      intro c hc
      rw [engine_child_boards, List.mem_reverse] at hc
      exact (hband c hc).2
    have hf : ∀ c a b o,
        (fun child a2 b2 anc => build_and_evaluate 0 child .BLACK a2 b2 anc) c a b o =
          (evaluate_bit_board c, o) := fun _ _ _ _ => rfl
    have hres : build_and_evaluate 1 g.bit_board .WHITE (-100) 100 none =
        ab_loop_white (fun child a2 b2 anc => build_and_evaluate 0 child .BLACK a2 b2 anc)
          (engine_child_boards (generate_moves_for_side g.bit_board .WHITE))
          (-100, none) (-100) 100 none := by
      rw [build_and_evaluate]
      rw [List.isEmpty_eq_false.2 hne]
      rw [if_neg (fun hh => nomatch hh)]
    rcases ab_loop_white_argmax _ hf
        (engine_child_boards (generate_moves_for_side g.bit_board .WHITE))
        (-100) none (-100) 100 (by omega) hb100 with ⟨_, hub⟩ | ⟨c, hc, heq, _, hub⟩
    · obtain ⟨c0, hc0⟩ := List.exists_mem_of_ne_nil _ hchne
      have h1 := hub c0 hc0
      have h2 := (hband c0 (by rwa [engine_child_boards, List.mem_reverse] at hc0)).1
      omega
    · have hcflat : c ∈ (generate_moves_for_side g.bit_board .WHITE).flatMap
          Move.terminal_bit_boards := by
        rwa [engine_child_boards, List.mem_reverse] at hc
      obtain ⟨mv1, hmv1, hcterm1⟩ := List.mem_flatMap.1 hcflat
      have hcmp1 : mv1.compare_follow_moves_to_bit_board c = true :=
        (compare_iff_mem_terminal c mv1).2 hcterm1
      have hfs : (((generate_moves_for_side g.bit_board .WHITE)).find?
          (fun mv => mv.compare_follow_moves_to_bit_board c)).isSome :=
        List.find?_isSome.2 ⟨mv1, hmv1, hcmp1⟩
      obtain ⟨mv0, hfind⟩ := Option.isSome_iff_exists.1 hfs
      have hmv0mem : mv0 ∈ generate_moves_for_side g.bit_board .WHITE :=
        List.mem_of_find?_eq_some hfind
      have hmv0term : c ∈ mv0.terminal_bit_boards :=
        (compare_iff_mem_terminal c mv0).1 (List.find?_some hfind)
      refine ⟨mv0, c, hmv0mem, hmv0term, ?_, ?_⟩
      · rw [best_move]
        rw [h, hres, heq]
        dsimp only
        rw [hg, h, hfind]
      · intro b' hb'
        rw [if_pos rfl]
        refine hub b' ?_
        rw [engine_child_boards, List.mem_reverse]
        exact hb'
  | BLACK =>
    rw [h] at hne hband
    obtain ⟨m1, rest1, hL⟩ := List.exists_cons_of_ne_nil hne
    have hchne : engine_child_boards (generate_moves_for_side g.bit_board .BLACK) ≠ [] := by
      rw [engine_child_boards, hL]
      simp only [List.flatMap_cons]
      intro hcontra
      rw [List.reverse_eq_nil_iff] at hcontra
      exact Move.terminal_ne m1 (List.append_eq_nil.1 hcontra).1
    have hb100 : ∀ c ∈ engine_child_boards (generate_moves_for_side g.bit_board .BLACK),
        -100 < evaluate_bit_board c := by
      intro c hc
      rw [engine_child_boards, List.mem_reverse] at hc
      exact (hband c hc).1
    have hf : ∀ c a b o,
        (fun child a2 b2 anc => build_and_evaluate 0 child .WHITE a2 b2 anc) c a b o =
          (evaluate_bit_board c, o) := fun _ _ _ _ => rfl
    have hres : build_and_evaluate 1 g.bit_board .BLACK (-100) 100 none =
        ab_loop_black (fun child a2 b2 anc => build_and_evaluate 0 child .WHITE a2 b2 anc)
          (engine_child_boards (generate_moves_for_side g.bit_board .BLACK))
          (100, none) (-100) 100 none := by
      rw [build_and_evaluate]
      rw [List.isEmpty_eq_false.2 hne]
      rw [if_neg (fun hh => nomatch hh)]
    rcases ab_loop_black_argmin _ hf
        (engine_child_boards (generate_moves_for_side g.bit_board .BLACK))
        100 none (-100) 100 (by omega) hb100 with ⟨_, hub⟩ | ⟨c, hc, heq, _, hub⟩
    · obtain ⟨c0, hc0⟩ := List.exists_mem_of_ne_nil _ hchne
      have h1 := hub c0 hc0
      have h2 := (hband c0 (by rwa [engine_child_boards, List.mem_reverse] at hc0)).2
      omega
    · have hcflat : c ∈ (generate_moves_for_side g.bit_board .BLACK).flatMap
          Move.terminal_bit_boards := by
        rwa [engine_child_boards, List.mem_reverse] at hc
      obtain ⟨mv1, hmv1, hcterm1⟩ := List.mem_flatMap.1 hcflat
      have hcmp1 : mv1.compare_follow_moves_to_bit_board c = true :=
        (compare_iff_mem_terminal c mv1).2 hcterm1
      have hfs : (((generate_moves_for_side g.bit_board .BLACK)).find?
          (fun mv => mv.compare_follow_moves_to_bit_board c)).isSome :=
        List.find?_isSome.2 ⟨mv1, hmv1, hcmp1⟩
      obtain ⟨mv0, hfind⟩ := Option.isSome_iff_exists.1 hfs
      have hmv0mem : mv0 ∈ generate_moves_for_side g.bit_board .BLACK :=
        List.mem_of_find?_eq_some hfind
      have hmv0term : c ∈ mv0.terminal_bit_boards :=
        (compare_iff_mem_terminal c mv0).1 (List.find?_some hfind)
      refine ⟨mv0, c, hmv0mem, hmv0term, ?_, ?_⟩
      · rw [best_move]
        rw [h, hres, heq]
        dsimp only
        rw [hg, h, hfind]
      · intro b' hb'
        rw [if_neg (fun hh => nomatch hh)]
        refine hub b' ?_
        rw [engine_child_boards, List.mem_reverse]
        exact hb'

end Shashki

namespace Shashki

/-- A board with one White man on square 50 and twenty White kings (no
Black piece), so the static evaluation of every position reachable in one
move lies above the +-100 alpha-beta start window of best_move. -/
def gbad_board : BitBoard :=
  { white_men := shl64 1 50
    white_kings := 0xFFFF ||| shl64 1 24 ||| shl64 1 26 ||| shl64 1 28 ||| shl64 1 30
    black_men := 0
    black_kings := 0 }

/-- The claim C3 counterexample game: gbad_board, White to move, empty
history. -/
def gbad : Game :=
  { bit_board := gbad_board, current_turn := .WHITE, executed_moves := [] }

/-- Claim C3 counterexample: the game gbad has legal moves, one of them
reaches a terminal board of evaluation 105 (the man promotes), yet
best_move at depth 1 returns a move whose only terminal board evaluates to
101: the first child already drives alpha to 101, at least beta = 100, and
the fail-hard loop cuts off before ever examining the promotion. -/
theorem C3_counterexample :
    generate_moves_for_game gbad ≠ [] ∧
    (best_move gbad 1).map (fun r => r.terminal_bit_boards.map evaluate_bit_board) =
      some [101] ∧
    (((generate_moves_for_game gbad).flatMap Move.terminal_bit_boards).map
      evaluate_bit_board).contains 105 = true := by
  decide

end Shashki

namespace Shashki

/-- Witness for C3_best_move_depth1 at the start game: the hypotheses hold
(no combo, seven legal moves, all terminal evaluations zero) and the
theorem applies. -/
theorem C3_best_move_depth1_witness :
    Game.start.in_move_combo = false ∧
    generate_moves_for_game Game.start ≠ [] ∧
    (∀ b ∈ (generate_moves_for_game Game.start).flatMap Move.terminal_bit_boards,
      -100 < evaluate_bit_board b ∧ evaluate_bit_board b < 100) ∧
    ∃ mv b, mv ∈ generate_moves_for_game Game.start ∧ b ∈ mv.terminal_bit_boards ∧
      best_move Game.start 1 = some (mv.shrink_follow_moves_to_bit_board b) ∧
      ∀ b' ∈ (generate_moves_for_game Game.start).flatMap Move.terminal_bit_boards,
        if Game.start.current_turn = .WHITE then evaluate_bit_board b' ≤ evaluate_bit_board b
        else evaluate_bit_board b ≤ evaluate_bit_board b' :=
  ⟨by decide, by decide, by decide,
    C3_best_move_depth1 Game.start (by decide) (by decide) (by decide)⟩

end Shashki
